import Mathlib

/-!
Verification development for the graph-data-modeling proof of concept.

The development shallowly embeds the canonicalization and deduplication
pipeline of the repository:

- scripts/run_stakeholder_extraction.py : the CanonicalGraphBuilder
  (normalization, canonical id resolution, incremental ingest, property
  reconciliation, final name-based reconcile, relationship remapping);
- scripts/dedupe_nodes_with_ollama.py : candidate blocking, the judged
  evaluation loop with checkpoint resume, union-find merge maps, and the
  node/relationship merge steps;
- scripts/reset_and_ingest_stakeholder_output.py : property sanitization
  for the downstream sink.

Python dictionaries are modelled as insertion-ordered association lists,
Python JSON-like values as the inductive type Value, and the external
judge and the difflib similarity routine as function parameters (they are
external oracles from the point of view of the scripts).
-/

namespace GraphPoC

/-- A Python JSON-like value as it occurs in the node and relationship
property bags: None, bool, int, string, list, or dict. Floats do not occur
in the modelled property paths. -/
inductive Value where
  | vNone : Value
  | vBool (b : Bool) : Value
  | vInt (n : Int) : Value
  | vStr (s : String) : Value
  | vList (items : List Value) : Value
  | vDict (entries : List (String × Value)) : Value

mutual

def Value.beq : Value → Value → Bool
  | .vNone, .vNone => true
  | .vBool a, .vBool b => a = b
  | .vInt a, .vInt b => a = b
  | .vStr a, .vStr b => a = b
  | .vList a, .vList b => beqValueList a b
  | .vDict a, .vDict b => beqValueDict a b
  | _, _ => false

def beqValueList : List Value → List Value → Bool
  | [], [] => true
  | a :: as, b :: bs => Value.beq a b && beqValueList as bs
  | _, _ => false

def beqValueDict : List (String × Value) → List (String × Value) → Bool
  | [], [] => true
  | (ka, va) :: as, (kb, vb) :: bs => ka = kb && Value.beq va vb && beqValueDict as bs
  | _, _ => false

end

mutual

theorem Value.beq_iff : ∀ a b : Value, Value.beq a b = true ↔ a = b
  | .vNone, .vNone => by simp [Value.beq]
  | .vBool _, .vBool _ => by simp [Value.beq]
  | .vInt _, .vInt _ => by simp [Value.beq]
  | .vStr _, .vStr _ => by simp [Value.beq]
  | .vList a, .vList b => by
      simp only [Value.beq, beqValueList_iff a b]
      constructor
      · intro h; rw [h]
      · intro h; cases h; rfl
  | .vDict a, .vDict b => by
      simp only [Value.beq, beqValueDict_iff a b]
      constructor
      · intro h; rw [h]
      · intro h; cases h; rfl
  | .vNone, .vBool _ => by simp [Value.beq]
  | .vNone, .vInt _ => by simp [Value.beq]
  | .vNone, .vStr _ => by simp [Value.beq]
  | .vNone, .vList _ => by simp [Value.beq]
  | .vNone, .vDict _ => by simp [Value.beq]
  | .vBool _, .vNone => by simp [Value.beq]
  | .vBool _, .vInt _ => by simp [Value.beq]
  | .vBool _, .vStr _ => by simp [Value.beq]
  | .vBool _, .vList _ => by simp [Value.beq]
  | .vBool _, .vDict _ => by simp [Value.beq]
  | .vInt _, .vNone => by simp [Value.beq]
  | .vInt _, .vBool _ => by simp [Value.beq]
  | .vInt _, .vStr _ => by simp [Value.beq]
  | .vInt _, .vList _ => by simp [Value.beq]
  | .vInt _, .vDict _ => by simp [Value.beq]
  | .vStr _, .vNone => by simp [Value.beq]
  | .vStr _, .vBool _ => by simp [Value.beq]
  | .vStr _, .vInt _ => by simp [Value.beq]
  | .vStr _, .vList _ => by simp [Value.beq]
  | .vStr _, .vDict _ => by simp [Value.beq]
  | .vList _, .vNone => by simp [Value.beq]
  | .vList _, .vBool _ => by simp [Value.beq]
  | .vList _, .vInt _ => by simp [Value.beq]
  | .vList _, .vStr _ => by simp [Value.beq]
  | .vList _, .vDict _ => by simp [Value.beq]
  | .vDict _, .vNone => by simp [Value.beq]
  | .vDict _, .vBool _ => by simp [Value.beq]
  | .vDict _, .vInt _ => by simp [Value.beq]
  | .vDict _, .vStr _ => by simp [Value.beq]
  | .vDict _, .vList _ => by simp [Value.beq]

theorem beqValueList_iff : ∀ a b : List Value, beqValueList a b = true ↔ a = b
  | [], [] => by simp [beqValueList]
  | a :: as, b :: bs => by
      simp only [beqValueList, Bool.and_eq_true, Value.beq_iff a b, beqValueList_iff as bs]
      simp
  | [], _ :: _ => by simp [beqValueList]
  | _ :: _, [] => by simp [beqValueList]

theorem beqValueDict_iff : ∀ a b : List (String × Value), beqValueDict a b = true ↔ a = b
  | [], [] => by simp [beqValueDict]
  | (ka, va) :: as, (kb, vb) :: bs => by
      simp only [beqValueDict, Bool.and_eq_true, Value.beq_iff va vb,
        beqValueDict_iff as bs, decide_eq_true_eq]
      constructor
      · rintro ⟨⟨h1, h2⟩, h3⟩; subst h1; subst h2; subst h3; rfl
      · intro h; cases h; exact ⟨⟨rfl, rfl⟩, rfl⟩
  | [], _ :: _ => by simp [beqValueDict]
  | _ :: _, [] => by simp [beqValueDict]

end

instance : DecidableEq Value := fun a b =>
  decidable_of_iff (Value.beq a b = true) (Value.beq_iff a b)

/-- Membership in the Python tuple (None, "", [], {}) used for the
empty-value checks of the merge code. -/
def isEmptyVal (v : Value) : Bool :=
  v = Value.vNone || v = Value.vStr "" || v = Value.vList [] || v = Value.vDict []

/-- Python truthiness of a JSON-like value. -/
def Value.falsy : Value → Bool
  | .vNone => true
  | .vBool b => !b
  | .vInt n => n = 0
  | .vStr s => s = ""
  | .vList l => l.isEmpty
  | .vDict l => l.isEmpty

def Value.isList : Value → Bool
  | .vList _ => true
  | _ => false

def Value.isStr : Value → Bool
  | .vStr _ => true
  | _ => false

/-- The string carried by a string value, and "" otherwise (only used
behind isStr guards that mirror the isinstance checks of the source). -/
def Value.strOf : Value → String
  | .vStr s => s
  | _ => ""

mutual

/-- The rendering produced by the Python repr function on JSON-like
values, used only through pyStr below. String escaping is exact for
strings without quote or backslash characters; the modelled pipeline never
applies str to a container value on the paths the claims are about. -/
def pyRepr : Value → String
  | .vNone => "None"
  | .vBool b => if b then "True" else "False"
  | .vInt n => toString n
  | .vStr s => String.mk ('\'' :: s.toList ++ ['\''])
  | .vList items => "[" ++ pyReprList items ++ "]"
  | .vDict entries => "\x7b" ++ pyReprDict entries ++ "\x7d"

def pyReprList : List Value → String
  | [] => ""
  | [v] => pyRepr v
  | v :: rest => pyRepr v ++ ", " ++ pyReprList rest

def pyReprDict : List (String × Value) → String
  | [] => ""
  | [(k, v)] => String.mk ('\'' :: k.toList ++ ['\'']) ++ ": " ++ pyRepr v
  | (k, v) :: rest =>
      String.mk ('\'' :: k.toList ++ ['\'']) ++ ": " ++ pyRepr v ++ ", " ++ pyReprDict rest

end

/-- The Python str conversion. On strings it is the identity; on scalars
it matches Python exactly; on containers it falls back to repr as Python
does. -/
def pyStr : Value → String
  | .vStr s => s
  | v => pyRepr v

/-- The Python int conversion used on the occurrences counters. Python
raises on values that this returns 0 for; in the pipeline the counters
are always ints (they are created as the literal 1), and the theorems
about them carry int-typedness hypotheses. -/
def pyInt : Value → Int
  | .vInt n => n
  | .vBool b => if b then 1 else 0
  | .vStr s => (s.toInt?).getD 0
  | _ => 0

/-- Association-list lookup, modelling Python dict access. -/
def aget {κ α : Type} [DecidableEq κ] (m : List (κ × α)) (k : κ) : Option α :=
  (m.find? (fun p => p.1 = k)).map (fun p => p.2)

/-- Association-list update-or-append, modelling Python dict assignment:
an existing key keeps its position, a new key is appended. -/
def aset {κ α : Type} [DecidableEq κ] : List (κ × α) → κ → α → List (κ × α)
  | [], k, v => [(k, v)]
  | (k0, v0) :: rest, k, v =>
      if k0 = k then (k, v) :: rest else (k0, v0) :: aset rest k v

/-- Association-list deletion, modelling the Python del statement. -/
def adel {κ α : Type} [DecidableEq κ] (m : List (κ × α)) (k : κ) : List (κ × α) :=
  m.filter (fun p => p.1 ≠ k)

/-- Append a member to the list held at a key, modelling
collections.defaultdict(list) accumulation. -/
def aappend {κ α : Type} [DecidableEq κ] (m : List (κ × List α)) (k : κ) (x : α) :
    List (κ × List α) :=
  match aget m k with
  | none => m ++ [(k, [x])]
  | some xs => aset m k (xs ++ [x])

def getProp (m : List (String × Value)) (k : String) : Option Value := aget m k

/-- Python dict get with a default. -/
def getPropD (m : List (String × Value)) (k : String) (d : Value) : Value :=
  (getProp m k).getD d

/-- Lowercasing a string character by character; the sources only apply
it to ASCII identifiers and labels. -/
def pyLower (s : String) : String := String.mk (s.toList.map Char.toLower)

def pyUpper (s : String) : String := String.mk (s.toList.map Char.toUpper)

/-- Leading fragment of a string by character count, modelling Python
slicing. -/
def strTake (s : String) (n : Nat) : String := String.mk (s.toList.take n)

/-- Python str.endswith. -/
def strEndsWith (s suffixStr : String) : Bool :=
  s.toList.drop (s.toList.length - suffixStr.toList.length) = suffixStr.toList

/-- Lexicographic strict order on character lists, the comparison Python
uses for strings (code-point order). -/
def charListLt : List Char → List Char → Bool
  | _, [] => false
  | [], _ :: _ => true
  | a :: as, b :: bs =>
      if a < b then true
      else if b < a then false
      else charListLt as bs

/-- Python string less-than. -/
def strLt (a b : String) : Bool := charListLt a.toList b.toList

/-- Python string less-or-equal. -/
def strLe (a b : String) : Bool := !(charListLt b.toList a.toList)

def isLowerAlnum (c : Char) : Bool :=
  ('a' ≤ c && c ≤ 'z') || ('0' ≤ c && c ≤ '9')

/-- Collapse consecutive repeats of a character into one occurrence. -/
def collapseChar (u : Char) : List Char → List Char
  | [] => []
  | [c] => [c]
  | c :: d :: rest =>
      if c = u && d = u then collapseChar u (d :: rest)
      else c :: collapseChar u (d :: rest)

/-- Strip a character from both ends of a character list. -/
def stripChar (u : Char) (l : List Char) : List Char :=
  ((l.dropWhile (fun c => c = u)).reverse.dropWhile (fun c => c = u)).reverse

/-- Stable insertion of an element into a sorted list: the element goes
before the first position where the order allows it, so equal elements
keep their original relative order. -/
def insertStable {α : Type} (le : α → α → Bool) (x : α) : List α → List α
  | [] => [x]
  | y :: ys => if le x y then x :: y :: ys else y :: insertStable le x ys

/-- Stable sort, modelling Python sorted and list.sort: for the total
boolean orders used in the sources, a stable sorted output is unique, so
this insertion sort coincides with the sort of the interpreter. -/
def pySort {α : Type} (le : α → α → Bool) : List α → List α
  | [] => []
  | x :: xs => insertStable le x (pySort le xs)

theorem insertStable_perm {α : Type} (le : α → α → Bool) (x : α) (l : List α) :
    List.Perm (insertStable le x l) (x :: l) := by
  induction l with
  | nil => simp [insertStable]
  | cons y ys ih =>
      unfold insertStable
      by_cases h : le x y = true
      · rw [if_pos h]
      · rw [if_neg h]
        exact (ih.cons y).trans (List.Perm.swap x y ys)

theorem pySort_perm {α : Type} (le : α → α → Bool) (l : List α) :
    List.Perm (pySort le l) l := by
  induction l with
  | nil => simp [pySort]
  | cons x xs ih =>
      unfold pySort
      exact ((insertStable_perm le x (pySort le xs)).trans (ih.cons x))

theorem mem_pySort {α : Type} (le : α → α → Bool) (l : List α) (y : α) :
    y ∈ pySort le l ↔ y ∈ l :=
  (pySort_perm le l).mem_iff

theorem insertStable_sorted {α : Type} (le : α → α → Bool)
    (trans : ∀ a b c, le a b = true → le b c = true → le a c = true)
    (total : ∀ a b, le a b || le b a) (x : α) (l : List α)
    (h : l.Pairwise (fun a b => le a b = true)) :
    (insertStable le x l).Pairwise (fun a b => le a b = true) := by
  induction l with
  | nil => simp [insertStable]
  | cons y ys ih =>
      unfold insertStable
      by_cases hxy : le x y = true
      · rw [if_pos hxy]
        refine List.Pairwise.cons ?_ h
        intro b hb
        rcases List.mem_cons.1 hb with hb | hb
        · subst hb; exact hxy
        · exact trans x y b hxy ((List.pairwise_cons.1 h).1 b hb)
      · have hxyf : le x y = false := by
          rw [Bool.not_eq_true] at hxy; exact hxy
        have hyx : le y x = true := by
          have ht := total x y
          rw [hxyf] at ht
          simpa using ht
        rw [if_neg hxy]
        have hys := List.pairwise_cons.1 h
        refine List.Pairwise.cons ?_ (ih hys.2)
        intro b hb
        have hmem := (insertStable_perm le x ys).mem_iff.1 hb
        rcases List.mem_cons.1 hmem with hb1 | hb1
        · subst hb1; exact hyx
        · exact hys.1 b hb1

theorem pySort_sorted {α : Type} (le : α → α → Bool)
    (trans : ∀ a b c, le a b = true → le b c = true → le a c = true)
    (total : ∀ a b, le a b || le b a) (l : List α) :
    (pySort le l).Pairwise (fun a b => le a b = true) := by
  induction l with
  | nil => simp [pySort]
  | cons x xs ih => exact insertStable_sorted le trans total x _ ih

theorem pySort_of_sorted {α : Type} (le : α → α → Bool) (l : List α)
    (h : l.Pairwise (fun a b => le a b = true)) : pySort le l = l := by
  induction l with
  | nil => rfl
  | cons x xs ih =>
      have hxs := List.pairwise_cons.1 h
      unfold pySort
      rw [ih hxs.2]
      cases xs with
      | nil => rfl
      | cons y ys =>
          unfold insertStable
          rw [if_pos (hxs.1 y (by simp))]

namespace Builder

/-- normalize_token from run_stakeholder_extraction.py: lowercase, map every
maximal run of characters outside a-z0-9 to an underscore, and strip
underscores from both ends. The final collapse of underscore runs in the
source is subsumed because the first substitution already collapses runs. -/
def normalizeToken (value : String) : String :=
  String.mk (stripChar '_' (collapseChar '_'
    ((pyLower value).toList.map (fun c => if isLowerAlnum c then c else '_'))))

/-- canonicalize_id: the normalized token, or the sentinel for records whose
id normalizes to the empty string. -/
def canonicalizeId (value : String) : String :=
  let n := normalizeToken value
  if n = "" then "unknown" else n

def labelAliases : List (String × String) :=
  [("COMPONENTS", "COMPONENT"), ("TOOLS", "TOOL"), ("PEOPLE", "PERSON"),
   ("LOCATIONS", "LOCATION"), ("SYMPTOMS", "SYMPTOM"), ("MEASUREMENTS", "MEASUREMENT")]

def domainAliases : List (String × String) :=
  [("warehouse_management_systems", "warehouse_management_system"),
   ("warehouse_management_system", "warehouse_management_system"),
   ("warehouse_management", "warehouse_management_system"),
   ("system_diagnostics", "system_diagnostics"),
   ("system_diagnostic", "system_diagnostics"),
   ("troubleshooting_methodology", "troubleshooting_methodology"),
   ("incident_management", "incident_management"),
   ("system_integration", "system_integration")]

def normalizeLabel (label : String) : String :=
  if label = "" then label
  else
    let normalized := pyUpper (normalizeToken label)
    ((aget labelAliases normalized).getD normalized)

/-- normalize_domain: non-string values pass through unchanged. -/
def normalizeDomain : Value → Value
  | .vStr s =>
      let normalized := normalizeToken s
      .vStr ((aget domainAliases normalized).getD normalized)
  | v => v

def normalizeRelationshipType (relType : String) : String :=
  pyUpper (normalizeToken (if relType = "" then "related_to" else relType))

def fingerprintStopwords : List String :=
  ["a", "an", "the", "system", "systems", "process", "procedure",
   "protocol", "workflow", "module", "platform"]

def isAsciiAlnum (c : Char) : Bool :=
  ('a' ≤ c && c ≤ 'z') || ('A' ≤ c && c ≤ 'Z') || ('0' ≤ c && c ≤ '9')

/-- The acronym pattern of display_name_fingerprint: optional leading
whitespace, 2 to 10 alphanumeric characters, optional whitespace, then an
opening parenthesis. Because the character after a shorter alphanumeric
run inside a longer run is itself alphanumeric, the regex can only match
at the full maximal run, so taking the maximal run is exact. -/
def acronymOf (name : String) : Option String :=
  let l := name.toList.dropWhile Char.isWhitespace
  let run := l.takeWhile isAsciiAlnum
  let rest := (l.dropWhile isAsciiAlnum).dropWhile Char.isWhitespace
  match rest with
  | '(' :: _ => if 2 ≤ run.length && run.length ≤ 10 then some (String.mk run) else none
  | _ => none

/-- Split a character list at the first closing parenthesis, returning the
remainder after it. -/
def pastClose : List Char → Option (List Char)
  | [] => none
  | ')' :: rest => some rest
  | _ :: rest => pastClose rest

theorem pastClose_length : ∀ {l r : List Char}, pastClose l = some r → r.length < l.length := by
  intro l
  induction l with
  | nil => intro r h; simp [pastClose] at h
  | cons c rest ih =>
      intro r h
      by_cases hc : c = ')'
      · subst hc
        simp [pastClose] at h
        subst h
        simp
      · have : pastClose (c :: rest) = pastClose rest := by
          cases c <;> simp_all [pastClose]
        rw [this] at h
        have := ih h
        simp
        omega

/-- Fueled scanner replacing each non-nested parenthetical (an opening
parenthesis, characters other than a closing parenthesis, a closing
parenthesis) with a single space, scanning left to right; an opening
parenthesis with no later closing parenthesis stays, exactly as the
regex substitution of the source behaves. Each step consumes at least
one character, so fuel equal to the length drives the scan to the end. -/
def stripParensF : Nat → List Char → List Char
  | 0, l => l
  | _ + 1, [] => []
  | fuel + 1, c :: rest =>
      if c = '(' then
        match pastClose rest with
        | some after => ' ' :: stripParensF fuel after
        | none => c :: stripParensF fuel rest
      else c :: stripParensF fuel rest

def stripParens (l : List Char) : List Char := stripParensF l.length l

/-- Split into maximal space-free words via an accumulator holding the
current word reversed, modelling the Python str.split with no arguments
(the only whitespace produced upstream is the space character). -/
def splitWordsAux : List Char → List Char → List String
  | [], acc => if acc.isEmpty then [] else [String.mk acc.reverse]
  | c :: rest, acc =>
      if c = ' ' then
        if acc.isEmpty then splitWordsAux rest []
        else String.mk acc.reverse :: splitWordsAux rest []
      else splitWordsAux rest (c :: acc)

def splitWords (l : List Char) : List String := splitWordsAux l []

def joinUnderscore : List String → String
  | [] => ""
  | [w] => w
  | w :: rest => w ++ "_" ++ joinUnderscore rest

/-- display_name_fingerprint from run_stakeholder_extraction.py. -/
def displayNameFingerprint (name : String) : String :=
  if (name.toList.filter (fun c => ¬ c.isWhitespace)).isEmpty then ""
  else
    let viaAcronym :=
      match acronymOf name with
      | some g =>
          let acronym := normalizeToken g
          if acronym ≠ "" then some acronym else none
      | none => none
    match viaAcronym with
    | some acronym => acronym
    | none =>
        let lowered := (pyLower name).toList
        let lowered := stripParens lowered
        let lowered := collapseChar ' ' (lowered.map (fun c => if isLowerAlnum c then c else ' '))
        let tokens := (splitWords lowered).filter
          (fun t => t ≠ "" && ¬ (fingerprintStopwords.contains t))
        if tokens.isEmpty then "" else joinUnderscore (tokens.take 6)

/-- The CONFIDENCE_RANK table, with 0 for unknown confidence strings. -/
def confidenceRank (s : String) : Nat :=
  if s = "low" then 1 else if s = "medium" then 2 else if s = "high" then 3 else 0

/-- merge_lists accumulation: skip None, splice lists, append scalars,
dropping values already present. -/
def mergeInto (acc : List Value) (v : Value) : List Value :=
  match v with
  | .vNone => acc
  | .vList items => items.foldl (fun a item => if item ∈ a then a else a ++ [item]) acc
  | other => if other ∈ acc then acc else acc ++ [other]

/-- merge_lists on two JSON-like values. -/
def mergeLists (left right : Value) : List Value :=
  mergeInto (mergeInto [] left) right

/-- merge_lists specialised to the always-list bookkeeping fields
(labels, source files, alias ids), which hold plain strings. -/
def mergeStrLists (left right : List String) : List String :=
  (left ++ right).foldl (fun a item => if item ∈ a then a else a ++ [item]) []

/-- A raw node record as delivered to ingest_batch: JSON id, labels and
property bag. The defensive branch of the source for a non-list labels
field is not modelled; the input schema fixes labels as a string array. -/
structure RawNode where
  id : String
  labels : List String
  properties : List (String × Value)

/-- A raw relationship record as delivered to ingest_batch. -/
structure RawRel where
  source : String
  target : String
  type : String
  properties : List (String × Value)

/-- A node record held by the canonical store, with the bookkeeping
fields the source keeps under underscore keys. -/
structure BNode where
  id : String
  labels : List String
  properties : List (String × Value)
  sourcePriority : Int
  sourceFiles : List String
  aliasIds : List String
deriving DecidableEq

/-- A relationship record held by the canonical store. -/
structure BRel where
  source : String
  target : String
  type : String
  properties : List (String × Value)
deriving DecidableEq

structure Stats where
  rawNodeRecords : Nat := 0
  rawRelationshipRecords : Nat := 0
  nodeUpserts : Nat := 0
  nodeMerges : Nat := 0
  relationshipUpserts : Nat := 0
  relationshipDeduped : Nat := 0
  finalNameMerges : Nat := 0
  finalRelationshipDeduped : Nat := 0
  droppedRelationshipsMissingEndpoints : Nat := 0
deriving DecidableEq

/-- The CanonicalGraphBuilder state: node store, relationship store keyed
by the (source, target, type) triple, alias map, and counters. -/
structure CGB where
  nodes : List (String × BNode) := []
  relationships : List ((String × String × String) × BRel) := []
  aliases : List (String × String) := []
  stats : Stats := {}
deriving DecidableEq

def sourcePriorityOf (kind : String) : Int := if kind = "csv" then 2 else 1

/-- _choose_property_value: the per-key property reconciliation policy. -/
def choosePropertyValue (key : String) (existingValue incomingValue : Value)
    (existingPriority incomingPriority : Int) : Value :=
  if isEmptyVal incomingValue then existingValue
  else if isEmptyVal existingValue then incomingValue
  else if existingValue.isList || incomingValue.isList then
    .vList (mergeLists existingValue incomingValue)
  else if key = "description" && existingValue.isStr && incomingValue.isStr then
    (if incomingValue.strOf.length > existingValue.strOf.length
     then incomingValue else existingValue)
  else if key = "domain" then
    (if incomingPriority > existingPriority
     then normalizeDomain incomingValue else normalizeDomain existingValue)
  else if existingValue.isStr && incomingValue.isStr then
    (if incomingPriority > existingPriority then incomingValue
     else if existingValue.strOf.length ≥ incomingValue.strOf.length
     then existingValue else incomingValue)
  else if incomingPriority ≥ existingPriority then incomingValue
  else existingValue

/-- The node_type read of _canonical_node_id: a missing key defaults to
the empty string; the attribute error Python would raise on a non-string
value is unreachable in the pipeline and modelled as the empty string. -/
def rawNodeType (node : RawNode) : String :=
  match getProp node.properties "node_type" with
  | some (.vStr s) => pyLower s
  | _ => ""

/-- The name-derived id of _canonical_node_id: empty when the name
property is missing or falsy. -/
def nameIdOf (node : RawNode) : String :=
  let nameV := getPropD node.properties "name" (.vStr "")
  if nameV.falsy then "" else canonicalizeId (pyStr nameV)

/-- _canonical_node_id: alias hit first, then the entity naming rules,
then the tabular-source preference, then the raw id fallbacks. -/
def canonicalNodeId (aliases : List (String × String)) (node : RawNode)
    (sourceKindValue : String) : String :=
  let rawId := canonicalizeId node.id
  let nameId := nameIdOf node
  let nodeType := rawNodeType node
  match (if rawId ≠ "" then aget aliases rawId else none) with
  | some hit => hit
  | none =>
  match (if nameId ≠ "" then aget aliases nameId else none) with
  | some hit => hit
  | none =>
  if nodeType = "entity" && nameId ≠ "" &&
      (strEndsWith rawId "_system" || strEndsWith rawId "_module") then nameId
  else if nodeType = "entity" && nameId ≠ "" && nameId.length ≤ rawId.length then nameId
  else if sourceKindValue = "csv" && nameId ≠ "" then nameId
  else if rawId ≠ "" then rawId
  else if nameId ≠ "" then nameId
  else "unknown_node"

/-- _normalize_node: normalized labels with the ENTITY default, the
domain and node_type property normalizations, and the bookkeeping
fields; the source_files and alias_ids property mirrors are added by the
insert and merge paths, as in the source. -/
def normalizeNode (aliases : List (String × String)) (node : RawNode)
    (sourceFile : String) (sourceKindValue : String) : BNode :=
  let normalizedLabels := (node.labels.filter (fun l => l ≠ "")).map normalizeLabel
  let normalizedLabels := if normalizedLabels.isEmpty then ["ENTITY"] else normalizedLabels
  let properties := node.properties
  let properties := aset properties "domain" (normalizeDomain (getPropD properties "domain" .vNone))
  let properties :=
    match getProp properties "node_type" with
    | some (.vStr s) => aset properties "node_type" (.vStr (normalizeToken s))
    | _ => aset properties "node_type" (.vStr (pyLower ((normalizedLabels.headD "ENTITY"))))
  { id := canonicalNodeId aliases node sourceKindValue
    labels := normalizedLabels
    properties := properties
    sourcePriority := sourcePriorityOf sourceKindValue
    sourceFiles := [sourceFile]
    aliasIds := [canonicalizeId node.id] }

/-- _merge_node_records: union the bookkeeping fields, reconcile every
property key with choosePropertyValue, and refresh the source_files and
alias_ids property mirrors. Key traversal order follows existing keys
then new incoming keys; the source iterates a Python set whose order is
unspecified, and each key is written exactly once, so only the dict
ordering (never a value) depends on that order. -/
def mergeNodeRecords (existing incoming : BNode) : BNode :=
  let existingKeys := existing.properties.map (fun p => p.1)
  let allKeys := existingKeys ++
    ((incoming.properties.map (fun p => p.1)).filter (fun k => k ∉ existingKeys))
  let properties := allKeys.foldl (fun acc k =>
    aset acc k (choosePropertyValue k
      (getPropD existing.properties k .vNone)
      (getPropD incoming.properties k .vNone)
      existing.sourcePriority incoming.sourcePriority)) existing.properties
  let sourceFiles := mergeStrLists existing.sourceFiles incoming.sourceFiles
  let aliasIds := mergeStrLists existing.aliasIds incoming.aliasIds
  let properties := aset properties "source_files" (.vList (sourceFiles.map .vStr))
  let properties := aset properties "alias_ids" (.vList (aliasIds.map .vStr))
  { id := existing.id
    labels := mergeStrLists existing.labels incoming.labels
    properties := properties
    sourcePriority := max existing.sourcePriority incoming.sourcePriority
    sourceFiles := sourceFiles
    aliasIds := aliasIds }

/-- The per-node body of ingest_batch: normalize, resolve the canonical
id, insert or merge, and register the alias entries. -/
def ingestNode (b : CGB) (node : RawNode) (sourceFile : String)
    (sourceKindValue : String) : CGB :=
  let normalizedNode := normalizeNode b.aliases node sourceFile sourceKindValue
  let canonicalId := normalizedNode.id
  let originalId := canonicalizeId node.id
  let (stored, nodes, stats) :=
    match aget b.nodes canonicalId with
    | some existing =>
        let merged := mergeNodeRecords existing normalizedNode
        (merged, aset b.nodes canonicalId merged,
         { b.stats with nodeMerges := b.stats.nodeMerges + 1 })
    | none =>
        let inserted := { normalizedNode with
          properties := aset
            (aset normalizedNode.properties "source_files"
              (.vList (normalizedNode.sourceFiles.map .vStr)))
            "alias_ids" (.vList (normalizedNode.aliasIds.map .vStr)) }
        (inserted, aset b.nodes canonicalId inserted, b.stats)
  let aliases := aset b.aliases canonicalId canonicalId
  let aliases := if originalId ≠ "" then aset aliases originalId canonicalId else aliases
  let aliases := stored.aliasIds.foldl (fun a al => aset a al canonicalId) aliases
  { b with nodes := nodes, aliases := aliases,
           stats := { stats with nodeUpserts := stats.nodeUpserts + 1 } }

/-- The per-relationship body of ingest_batch: endpoint remap through the
alias map, type normalization, then insert or merge under the composite
key with the occurrence, confidence, context, domain and source-file
policies of the source. -/
def ingestRel (b : CGB) (rel : RawRel) (sourceFile : String) : CGB :=
  let sourceId0 := canonicalizeId rel.source
  let targetId0 := canonicalizeId rel.target
  let sourceId := (aget b.aliases sourceId0).getD sourceId0
  let targetId := (aget b.aliases targetId0).getD targetId0
  let relType := normalizeRelationshipType rel.type
  let key := (sourceId, targetId, relType)
  let relProperties := aset rel.properties "domain"
    (normalizeDomain (getPropD rel.properties "domain" .vNone))
  let relProperties := aset relProperties "source_files"
    (.vList (mergeLists (getPropD relProperties "source_files" .vNone) (.vList [.vStr sourceFile])))
  let relProperties := aset relProperties "occurrences" (.vInt 1)
  match aget b.relationships key with
  | some existingRel =>
      let ep := existingRel.properties
      let ep := aset ep "source_files"
        (.vList (mergeLists (getPropD ep "source_files" .vNone)
                            (getPropD relProperties "source_files" .vNone)))
      let ep := aset ep "occurrences" (.vInt (pyInt (getPropD ep "occurrences" (.vInt 1)) + 1))
      let existingConf := pyLower (pyStr (getPropD ep "confidence" (.vStr "low")))
      let incomingConf := pyLower (pyStr (getPropD relProperties "confidence" (.vStr "low")))
      let ep :=
        if confidenceRank incomingConf > confidenceRank existingConf
        then aset ep "confidence" (.vStr incomingConf) else ep
      let existingContext := pyStr (getPropD ep "context" (.vStr ""))
      let incomingContext := pyStr (getPropD relProperties "context" (.vStr ""))
      let ep :=
        if incomingContext.length > existingContext.length
        then aset ep "context" (.vStr incomingContext) else ep
      let ep :=
        if ¬ (getPropD relProperties "domain" .vNone).falsy ∧
           (getPropD ep "domain" .vNone).falsy
        then aset ep "domain" (getPropD relProperties "domain" .vNone) else ep
      { b with
        relationships := aset b.relationships key { existingRel with properties := ep }
        stats := { b.stats with
          relationshipDeduped := b.stats.relationshipDeduped + 1
          relationshipUpserts := b.stats.relationshipUpserts + 1 } }
  | none =>
      { b with
        relationships := aset b.relationships key
          { source := sourceId, target := targetId, type := relType, properties := relProperties }
        stats := { b.stats with relationshipUpserts := b.stats.relationshipUpserts + 1 } }

/-- ingest_batch over one source file. -/
def ingestBatch (b : CGB) (nodes : List RawNode) (relationships : List RawRel)
    (sourceFile : String) (sourceKindValue : String) : CGB :=
  let b := { b with stats := { b.stats with
    rawNodeRecords := b.stats.rawNodeRecords + nodes.length
    rawRelationshipRecords := b.stats.rawRelationshipRecords + relationships.length } }
  let b := nodes.foldl (fun acc n => ingestNode acc n sourceFile sourceKindValue) b
  relationships.foldl (fun acc r => ingestRel acc r sourceFile) b

/-- _coarse_domain: the domain property when it is one of the four coarse
values, and the empty string otherwise. -/
def coarseDomain (node : BNode) : String :=
  match getProp node.properties "domain" with
  | some (.vStr s) =>
      if s = "hardware" || s = "software" || s = "environmental" || s = "human" then s else ""
  | _ => ""

/-- The length Python takes of the source_files property when ranking
primary candidates: list length, 0 when missing. -/
def sourceFilesLen (b : CGB) (nodeId : String) : Nat :=
  match aget b.nodes nodeId with
  | some node =>
      match getProp node.properties "source_files" with
      | some (.vList l) => l.length
      | _ => 0
  | none => 0

/-- The (length, negated provenance count, id) sort key of
_choose_primary_id, as a boolean order for the stable sort. -/
def primaryKeyLe (b : CGB) (x y : String) : Bool :=
  let kx : Nat × Int × String := (x.length, -(sourceFilesLen b x : Int), x)
  let ky : Nat × Int × String := (y.length, -(sourceFilesLen b y : Int), y)
  if kx.1 ≠ ky.1 then kx.1 < ky.1
  else if kx.2.1 ≠ ky.2.1 then kx.2.1 < ky.2.1
  else strLe kx.2.2 ky.2.2

/-- _choose_primary_id: the fingerprint itself when it is a member id,
otherwise the least id under the (shortest id, most provenance, id)
ranking. -/
def choosePrimaryId (b : CGB) (nodeIds : List String) (fingerprint : String) : String :=
  if fingerprint ∈ nodeIds then fingerprint
  else ((pySort (primaryKeyLe b) nodeIds).headD "")

/-- _can_merge_nodes: coarse domains must agree whenever both are set. -/
def canMergeNodes (left right : BNode) : Bool :=
  let leftDomain := coarseDomain left
  let rightDomain := coarseDomain right
  ¬ (leftDomain ≠ "" ∧ rightDomain ≠ "" ∧ leftDomain ≠ rightDomain)

/-- The grouping key of _final_name_based_reconcile for one stored node:
node type plus the display-name fingerprint with the node-id fallback;
none when both fingerprints are empty. -/
def reconcileKey (nodeId : String) (node : BNode) : Option (String × String) :=
  let nodeType := pyStr (getPropD node.properties "node_type" (.vStr ""))
  let name := pyStr (getPropD node.properties "name" (.vStr ""))
  let fp0 := displayNameFingerprint name
  let fp := if fp0 = "" then displayNameFingerprint nodeId else fp0
  if fp = "" then none else some (nodeType, fp)

/-- The fingerprint groups of _final_name_based_reconcile, in node-store
insertion order. -/
def reconcileGroups (b : CGB) : List ((String × String) × List String) :=
  b.nodes.foldl (fun acc p =>
    match reconcileKey p.1 p.2 with
    | none => acc
    | some key => aappend acc key p.1) []

/-- The per-candidate body of the reconcile merge loop. -/
def reconcileCandidate (primary : String) (st : CGB × List (String × String))
    (candidate : String) : CGB × List (String × String) :=
  let (b, remap) := st
  if candidate = primary then (b, remap)
  else
    match aget b.nodes candidate, aget b.nodes primary with
    | some candidateNode, some primaryNode =>
        if canMergeNodes primaryNode candidateNode then
          let merged := { mergeNodeRecords primaryNode candidateNode with id := primary }
          let b := { b with
            nodes := adel (aset b.nodes primary merged) candidate
            aliases := aset b.aliases candidate primary
            stats := { b.stats with finalNameMerges := b.stats.finalNameMerges + 1 } }
          (b, remap ++ [(candidate, primary)])
        else (b, remap)
    | _, _ => (b, remap)

/-- The per-group body of the reconcile merge loop: groups with fewer
than two members are skipped; a primary is chosen against the current
store and the members folded into it. -/
def reconcileGroupStep (st : CGB × List (String × String))
    (keyed : (String × String) × List String) : CGB × List (String × String) :=
  if keyed.2.length < 2 then st
  else keyed.2.foldl (reconcileCandidate (choosePrimaryId st.1 keyed.2 keyed.1.2)) st

/-- _final_name_based_reconcile: group by (node type, fingerprint), pick a
primary per group, and fold compatible members into it, returning the
remap of merged ids. -/
def finalNameBasedReconcile (b : CGB) : CGB × List (String × String) :=
  (reconcileGroups b).foldl reconcileGroupStep (b, [])

/-- The per-relationship body of _remap_relationships: remap endpoints,
drop records with a missing endpoint, and merge key collisions by
unioning source files, summing occurrences and keeping the longer
context (the confidence of the first record is kept untouched). -/
def remapRelStep (b : CGB) (remap : List (String × String))
    (st : List ((String × String × String) × BRel) × Nat × Nat)
    (rel : BRel) : List ((String × String × String) × BRel) × Nat × Nat :=
  let (acc, deduped, dropped) := st
  let sourceId := (aget remap rel.source).getD rel.source
  let targetId := (aget remap rel.target).getD rel.target
  let relType := rel.type
  if (aget b.nodes sourceId).isNone || (aget b.nodes targetId).isNone then
    (acc, deduped, dropped + 1)
  else
    let key := (sourceId, targetId, relType)
    match aget acc key with
    | some existingRel =>
        let ep := existingRel.properties
        let ep := aset ep "source_files"
          (.vList (mergeLists (getPropD ep "source_files" .vNone)
                              (getPropD rel.properties "source_files" .vNone)))
        let ep := aset ep "occurrences"
          (.vInt (pyInt (getPropD ep "occurrences" (.vInt 1)) +
                  pyInt (getPropD rel.properties "occurrences" (.vInt 1))))
        let existingContext := pyStr (getPropD ep "context" (.vStr ""))
        let incomingContext := pyStr (getPropD rel.properties "context" (.vStr ""))
        let ep :=
          if incomingContext.length > existingContext.length
          then aset ep "context" (.vStr incomingContext) else ep
        (aset acc key { existingRel with properties := ep }, deduped + 1, dropped)
    | none =>
        (aset acc key { source := sourceId, target := targetId, type := relType,
                        properties := rel.properties }, deduped, dropped)

/-- _remap_relationships over the whole relationship store. -/
def remapRelationships (b : CGB) (remap : List (String × String)) : CGB :=
  let (acc, deduped, dropped) :=
    (b.relationships.map (fun p => p.2)).foldl (remapRelStep b remap) ([], 0, 0)
  { b with relationships := acc
           stats := { b.stats with
             finalRelationshipDeduped := b.stats.finalRelationshipDeduped + deduped
             droppedRelationshipsMissingEndpoints :=
               b.stats.droppedRelationshipsMissingEndpoints + dropped } }

/-- finalize: the final name-based reconcile followed by the relationship
remap. -/
def finalize (b : CGB) : CGB :=
  let (b1, remap) := finalNameBasedReconcile b
  remapRelationships b1 remap

end Builder

namespace Dedupe

/-- The configuration block of dedupe_nodes_with_ollama.py. The source
holds these as module-level constants explicitly marked as editable
configuration; the claims quantify over the configured values. -/
structure DCfg where
  similarityThreshold : ℚ
  crossTypeExactMatch : Bool
  allowCrossTypeMerge : Bool
  confidenceThreshold : ℚ
  checkpointEvery : Nat
  prefixLen : Nat
  minNameLen : Nat
  maxBucketSize : Nat
  maxCandidatesPerNode : Nat
  maxTotalCandidates : Nat
  dryRun : Bool

/-- The constant values of the source configuration block. -/
def defaultCfg : DCfg :=
  { similarityThreshold := 9/10
    crossTypeExactMatch := true
    allowCrossTypeMerge := false
    confidenceThreshold := 85/100
    checkpointEvery := 1
    prefixLen := 4
    minNameLen := 4
    maxBucketSize := 400
    maxCandidatesPerNode := 25
    maxTotalCandidates := 8000
    dryRun := false }

/-- A node of the input JSON (neo4j_nodes.json). -/
structure JNode where
  id : String
  labels : List String
  properties : List (String × Value)
deriving DecidableEq

/-- A relationship of the input JSON (neo4j_relationships.json); the
optional temporal_info and endpoint-label fields are empty when absent,
matching their falsiness checks in the source. -/
structure JRel where
  source : String
  target : String
  type : String
  properties : List (String × Value)
  temporalInfo : List (String × Value)
  sourceLabels : List String
  targetLabels : List String
deriving DecidableEq

/-- _normalize_text: lowercase, map characters outside a-z0-9 and
whitespace to spaces, collapse whitespace runs to single spaces, strip.
Folding every non-alphanumeric character to a space and collapsing is
equivalent because whitespace is itself non-alphanumeric. -/
def normalizeText (value : String) : String :=
  String.mk (stripChar ' ' (collapseChar ' '
    ((pyLower value).toList.map (fun c => if isLowerAlnum c then c else ' '))))

def labelGroups : List String := ["Entity", "Event", "Concept"]

/-- _label_group: the first label in the coarse group set, else Unknown. -/
def labelGroup (labels : List String) : String :=
  match labels.find? (fun l => labelGroups.contains l) with
  | some l => l
  | none => "Unknown"

/-- A normalized candidate record built by _build_candidates. -/
structure DRec where
  id : String
  labels : List String
  group : String
  name : String
  description : String
  domain : String
  nameNorm : String
  descNorm : String
deriving DecidableEq

/-- A candidate pair. -/
structure Cand where
  nodeA : String
  nodeB : String
  reason : String
  nameSimilarity : ℚ
deriving DecidableEq

/-- The round(score, 4) call on the similarity score: the nearest
multiple of 1/10000, computed by floor division. Python rounds ties to
even; this rounding differs only on exact half-way values and the
rounded score is carried opaquely by every claim. -/
def round4 (q : ℚ) : ℚ :=
  mkRat (Int.fdiv (2 * (q.num * 10000) + (q.den : ℤ)) (2 * (q.den : ℤ))) 10000

/-- The per-node normalized record of _build_candidates. -/
def recordOfNode (node : JNode) : DRec :=
  let nameV := getPropD node.properties "name" .vNone
  let name := if nameV.falsy then node.id else pyStr nameV
  let descriptionV := getPropD node.properties "description" .vNone
  let description := if descriptionV.falsy then "" else pyStr descriptionV
  let domainV := getPropD node.properties "domain" .vNone
  let domain := if domainV.falsy then "" else pyStr domainV
  let nameNorm0 := normalizeText name
  { id := node.id
    labels := node.labels
    group := labelGroup node.labels
    name := name
    description := description
    domain := domain
    nameNorm := if nameNorm0 = "" then normalizeText node.id else nameNorm0
    descNorm := normalizeText description }

/-- The record list and record_by_id map of _build_candidates (records
with a falsy id are skipped). -/
def buildRecords (nodes : List JNode) : List DRec × List (String × DRec) :=
  nodes.foldl (fun (st : List DRec × List (String × DRec)) node =>
    if node.id = "" then st
    else
      let record := recordOfNode node
      (st.1 ++ [record], aset st.2 node.id record)) ([], [])

/-- The blocking key of a record under a given name-fragment length. -/
def bucketKeyOf (cfg : DCfg) (record : DRec) : String × String × String :=
  (record.group, record.domain, strTake record.nameNorm cfg.prefixLen)

/-- The blocking buckets, keyed by (group, domain, leading name
fragment), each bucket in record order. -/
def bucketsOf (cfg : DCfg) (records : List DRec) :
    List ((String × String × String) × List DRec) :=
  records.foldl (fun acc record => aappend acc (bucketKeyOf cfg record) record) []

/-- The unordered pair key tuple(sorted((a, b))). -/
def pairKey (a b : String) : String × String :=
  if strLe a b then (a, b) else (b, a)

/-- The mutable state threaded through candidate generation. -/
structure GenSt where
  seen : List (String × String)
  candidates : List Cand
  perNode : List (String × Nat)
deriving DecidableEq

def perNodeCount (st : GenSt) (id : String) : Nat := (aget st.perNode id).getD 0

/-- One inner-loop iteration of the same-group bucket pass: the chain of
skip conditions, then the candidate emission. -/
def bucketPairStep (cfg : DCfg) (sim : String → String → ℚ) (a b : DRec)
    (st : GenSt) : GenSt :=
  if perNodeCount st a.id ≥ cfg.maxCandidatesPerNode then st
  else if perNodeCount st b.id ≥ cfg.maxCandidatesPerNode then st
  else if a.id = b.id then st
  else if pairKey a.id b.id ∈ st.seen then st
  else if a.nameNorm.length < cfg.minNameLen || b.nameNorm.length < cfg.minNameLen then st
  else
    if sim a.nameNorm b.nameNorm < cfg.similarityThreshold then st
    else
      { seen := st.seen ++ [pairKey a.id b.id]
        candidates := st.candidates ++
          [{ nodeA := a.id, nodeB := b.id, reason := "same_group_bucket",
             nameSimilarity := round4 (sim a.nameNorm b.nameNorm) }]
        perNode := aset (aset st.perNode a.id (perNodeCount st a.id + 1)) b.id
          (perNodeCount { st with perNode := aset st.perNode a.id (perNodeCount st a.id + 1) } b.id + 1) }

/-- The inner j-loop over the partners of one record; the break on the
global candidate cap stops the scan (the cap can only be reached, never
left, so re-checking it at each partner is the break). -/
def bucketInner (cfg : DCfg) (sim : String → String → ℚ) (a : DRec) :
    List DRec → GenSt → GenSt
  | [], st => st
  | b :: rest, st =>
      if st.candidates.length ≥ cfg.maxTotalCandidates then st
      else bucketInner cfg sim a rest (bucketPairStep cfg sim a b st)

/-- The outer i-loop over one sorted bucket, with the bucket-level break
on the global candidate cap. -/
def bucketOuter (cfg : DCfg) (sim : String → String → ℚ) :
    List DRec → GenSt → GenSt
  | [], st => st
  | a :: rest, st =>
      let st := bucketInner cfg sim a rest st
      if st.candidates.length ≥ cfg.maxTotalCandidates then st
      else bucketOuter cfg sim rest st

/-- Sorting within a bucket by (name_norm, id). -/
def recLe (a b : DRec) : Bool :=
  if a.nameNorm ≠ b.nameNorm then strLt a.nameNorm b.nameNorm else strLe a.id b.id

/-- Lexicographic order on bucket keys, matching sorted() on 3-tuples. -/
def keyLe (a b : String × String × String) : Bool :=
  if a.1 ≠ b.1 then strLt a.1 b.1
  else if a.2.1 ≠ b.2.1 then strLt a.2.1 b.2.1
  else strLe a.2.2 b.2.2

/-- The same-group bucket pass over the sorted bucket keys: oversized
buckets are skipped entirely. -/
def bucketPass (cfg : DCfg) (sim : String → String → ℚ)
    (buckets : List ((String × String × String) × List DRec)) :
    List (String × String × String) → GenSt → GenSt
  | [], st => st
  | key :: restKeys, st =>
      let bucket := (aget buckets key).getD []
      if bucket.length > cfg.maxBucketSize then bucketPass cfg sim buckets restKeys st
      else
        let st := bucketOuter cfg sim (pySort recLe bucket) st
        if st.candidates.length ≥ cfg.maxTotalCandidates then st
        else bucketPass cfg sim buckets restKeys st

/-- One inner iteration of the cross-type exact-name pass: only the seen
check guards emission. -/
def crossPairStep (a b : DRec) (st : GenSt) : GenSt :=
  if pairKey a.id b.id ∈ st.seen then st
  else
    { st with
      seen := st.seen ++ [pairKey a.id b.id]
      candidates := st.candidates ++
        [{ nodeA := a.id, nodeB := b.id, reason := "cross_type_exact_name",
           nameSimilarity := 1 }] }

def crossInner (cfg : DCfg) (a : DRec) : List DRec → GenSt → GenSt
  | [], st => st
  | b :: rest, st =>
      if st.candidates.length ≥ cfg.maxTotalCandidates then st
      else crossInner cfg a rest (crossPairStep a b st)

def crossOuter (cfg : DCfg) : List DRec → GenSt → GenSt
  | [], st => st
  | a :: rest, st =>
      let st := crossInner cfg a rest st
      if st.candidates.length ≥ cfg.maxTotalCandidates then st
      else crossOuter cfg rest st

/-- Sorting within an exact-name group by (group, id). -/
def crossLe (a b : DRec) : Bool :=
  if a.group ≠ b.group then strLt a.group b.group else strLe a.id b.id

/-- The cross-type pass over the sorted exact normalized names: names
present under a single coarse group are skipped. -/
def crossPass (cfg : DCfg) (nameMap : List (String × List DRec)) :
    List String → GenSt → GenSt
  | [], st => st
  | nm :: rest, st =>
      let items := (aget nameMap nm).getD []
      if ((items.map (fun r => r.group)).eraseDups).length ≤ 1 then
        crossPass cfg nameMap rest st
      else
        let st := crossOuter cfg (pySort crossLe items) st
        if st.candidates.length ≥ cfg.maxTotalCandidates then st
        else crossPass cfg nameMap rest st

/-- _build_candidates: the bucket pass followed by the optional
cross-type exact-name pass. The similarity scorer of the source (the
difflib ratio) is an external library routine passed in as a function. -/
def buildCandidates (cfg : DCfg) (sim : String → String → ℚ) (nodes : List JNode) :
    List Cand × List (String × DRec) :=
  let records := (buildRecords nodes).1
  let recordById := (buildRecords nodes).2
  let buckets := bucketsOf cfg records
  let sortedKeys := pySort keyLe (buckets.map (fun p => p.1))
  let st := bucketPass cfg sim buckets sortedKeys { seen := [], candidates := [], perNode := [] }
  let st :=
    if cfg.crossTypeExactMatch then
      let nameMap := records.foldl (fun acc r =>
        if r.nameNorm ≠ "" then aappend acc r.nameNorm r else acc) []
      crossPass cfg nameMap (pySort strLe (nameMap.map (fun p => p.1))) st
    else st
  (st.candidates, recordById)

/-- A parsed judge verdict, as validated by the response format schema. -/
structure Verdict where
  same : Bool
  confidence : ℚ
  canonicalName : String
  reason : String

/-- A reviewed-pair record as persisted in the checkpoint: the pair ids
with the verdict, none standing for an errored call. The descriptive
fields the source also stores (labels, names, reason, similarity) do not
feed back into the computation. -/
structure Reviewed where
  nodeA : String
  nodeB : String
  verdict : Option Verdict

/-- The state threaded through the evaluation loop: the reviewed list,
the accepted merge edges, the cross-type suggestion counter, and the
processed-pair set. -/
structure EvalSt where
  reviewed : List Reviewed
  mergeEdges : List (String × String)
  crossTypeSuggestions : Nat
  processed : List (String × String)

def initEvalSt : EvalSt :=
  { reviewed := [], mergeEdges := [], crossTypeSuggestions := 0, processed := [] }

/-- The verdict the loop obtains for a pair of records: the fixed
non-match in dry-run mode, otherwise the external judge (none models a
call that exhausted its retries). -/
def effectiveVerdict (cfg : DCfg) (judge : DRec → DRec → Option Verdict)
    (a b : DRec) : Option Verdict :=
  if cfg.dryRun then some { same := false, confidence := 0, canonicalName := "", reason := "dry_run" }
  else judge a b

/-- One iteration of the evaluation loop over a candidate: skip processed
pairs, record the review, then gate the merge edge on the verdict, the
confidence threshold and the cross-group rule. -/
def evalStep (cfg : DCfg) (judge : DRec → DRec → Option Verdict)
    (recs : String → DRec) (st : EvalSt) (candidate : Cand) : EvalSt :=
  let pair := pairKey candidate.nodeA candidate.nodeB
  if pair ∈ st.processed then st
  else
    let nodeA := recs candidate.nodeA
    let nodeB := recs candidate.nodeB
    let result := effectiveVerdict cfg judge nodeA nodeB
    let st := { st with
      reviewed := st.reviewed ++ [{ nodeA := nodeA.id, nodeB := nodeB.id, verdict := result }]
      processed := st.processed ++ [pair] }
    match result with
    | none => st
    | some v =>
        if ¬ v.same ∨ v.confidence < cfg.confidenceThreshold then st
        else if nodeA.group ≠ nodeB.group ∧ ¬ cfg.allowCrossTypeMerge then
          { st with crossTypeSuggestions := st.crossTypeSuggestions + 1 }
        else { st with mergeEdges := st.mergeEdges ++ [(nodeA.id, nodeB.id)] }

/-- The evaluation loop over a candidate list. -/
def runEval (cfg : DCfg) (judge : DRec → DRec → Option Verdict)
    (recs : String → DRec) (st : EvalSt) (candidates : List Cand) : EvalSt :=
  candidates.foldl (evalStep cfg judge recs) st

/-- The pair key persisted for a reviewed record. -/
def reviewedKey (r : Reviewed) : String × String := pairKey r.nodeA r.nodeB

/-- The state a resumed run starts from: the checkpoint carries the
reviewed list, the merge edges and the counters, and the processed-pair
set is reconstructed from the reviewed list. -/
def resumeSt (checkpoint : EvalSt) : EvalSt :=
  { reviewed := checkpoint.reviewed
    mergeEdges := checkpoint.mergeEdges
    crossTypeSuggestions := checkpoint.crossTypeSuggestions
    processed := checkpoint.reviewed.map reviewedKey }

/-- Insert an id into the union-find parent map as its own parent when it
is absent, as the find of the source does on first contact. -/
def ufInsert (parent : List (String × String)) (x : String) : List (String × String) :=
  if (aget parent x).isSome then parent else parent ++ [(x, x)]

/-- Iterative root lookup. The source compresses paths while finding;
compression rewrites parent links to the root it returns, so the roots
computed with and without it coincide, and only the roots are read. -/
def findRootGo (parent : List (String × String)) : Nat → String → String
  | 0, x => x
  | n + 1, x =>
      match aget parent x with
      | none => x
      | some p => if p = x then x else findRootGo parent n p

def findRoot (parent : List (String × String)) (x : String) : String :=
  findRootGo parent parent.length x

/-- union: insert both endpoints, then attach the root of the second to
the root of the first when they differ. -/
def ufUnion (parent : List (String × String)) (edge : String × String) :
    List (String × String) :=
  let p := ufInsert (ufInsert parent edge.1) edge.2
  let rootX := findRoot p edge.1
  let rootY := findRoot p edge.2
  if rootX = rootY then p else aset p rootY rootX

/-- _node_score: name length plus description length plus label count. -/
def nodeScore (r : DRec) : Nat := r.name.length + r.description.length + r.labels.length

/-- Python max with a key function: the first element attaining the
maximal score. -/
def pyMaxBy (score : String → Nat) : String → List String → String
  | best, [] => best
  | best, x :: rest => pyMaxBy score (if score x > score best then x else best) rest

/-- The merge map built from the accepted edges: union-find roots, groups
by root in first-contact order, the richest member as canonical
representative, and an entry for every non-canonical member. -/
def buildMergeMap (edges : List (String × String)) (recs : String → DRec) :
    List (String × String) :=
  let parent := edges.foldl ufUnion []
  let mergeMapRoot := parent.map (fun p => (p.1, findRoot parent p.1))
  let groups := mergeMapRoot.foldl (fun acc p => aappend acc p.2 p.1) []
  groups.foldl (fun mm g =>
    match g.2 with
    | [] => mm
    | m :: rest =>
        let canonical := pyMaxBy (fun i => nodeScore (recs i)) m rest
        g.2.foldl (fun mm member =>
          if member ≠ canonical then mm ++ [(member, canonical)] else mm) mm) []

/-- The per-key property update of _merge_nodes: an absent or empty
existing value is overwritten by the incoming one. -/
def fillProp (props : List (String × Value)) (key : String) (value : Value) :
    List (String × Value) :=
  match getProp props key with
  | none => aset props key value
  | some existingValue =>
      if isEmptyVal existingValue then aset props key value else props

/-- The per-node body of _merge_nodes: remap the id through the merge
map, insert a fresh record or merge labels (sorted union) and fill empty
properties on an existing one. -/
def mergeNodesStep (mergeMap : List (String × String))
    (acc : List (String × JNode)) (node : JNode) : List (String × JNode) :=
  if node.id = "" then acc
  else
    match aget acc ((aget mergeMap node.id).getD node.id) with
    | none => acc ++ [((aget mergeMap node.id).getD node.id,
        { id := (aget mergeMap node.id).getD node.id, labels := node.labels,
          properties := node.properties })]
    | some existing =>
        aset acc ((aget mergeMap node.id).getD node.id)
          { id := existing.id
            labels := pySort strLe
              ((existing.labels ++ node.labels).eraseDups)
            properties := node.properties.foldl
              (fun props (kv : String × Value) => fillProp props kv.1 kv.2)
              existing.properties }

/-- _merge_nodes: fold the node list through the merge map, then sort by
id. -/
def mergeNodes (nodes : List JNode) (mergeMap : List (String × String)) : List JNode :=
  pySort (fun (a b : JNode) => strLe a.id b.id)
    ((nodes.foldl (mergeNodesStep mergeMap) []).map (fun p => p.2))

/-- The merged relationship records of _merge_relationships. -/
structure MRel where
  source : String
  target : String
  type : String
  properties : List (String × Value)
  temporalInfo : List (String × Value)
  sourceLabels : List String
  targetLabels : List String
deriving DecidableEq

/-- Sort key order (source, type, target) of _merge_relationships. -/
def mrelLe (a b : MRel) : Bool :=
  if a.source ≠ b.source then strLt a.source b.source
  else if a.type ≠ b.type then strLt a.type b.type
  else strLe a.target b.target

/-- _merge_relationships: remap endpoints through the merge map, key by
(source, type, target), fill empty properties and temporal fields on
collisions, then sort. -/
def mergeRelationships (relationships : List JRel) (mergeMap : List (String × String)) :
    List MRel :=
  let merged := relationships.foldl
    (fun (acc : List ((String × String × String) × MRel)) rel =>
      let source := (aget mergeMap rel.source).getD rel.source
      let target := (aget mergeMap rel.target).getD rel.target
      if source = "" ∨ target = "" ∨ rel.type = "" then acc
      else
        let key := (source, rel.type, target)
        match aget acc key with
        | none => acc ++ [(key,
            { source := source, target := target, type := rel.type,
              properties := rel.properties
              temporalInfo := if rel.temporalInfo.isEmpty then [] else rel.temporalInfo
              sourceLabels := rel.sourceLabels, targetLabels := rel.targetLabels })]
        | some existing =>
            let properties := rel.properties.foldl
              (fun props (kv : String × Value) => fillProp props kv.1 kv.2)
              existing.properties
            let temporalInfo :=
              if rel.temporalInfo.isEmpty then existing.temporalInfo
              else rel.temporalInfo.foldl
                (fun props (kv : String × Value) => fillProp props kv.1 kv.2)
                existing.temporalInfo
            aset acc key { existing with properties := properties, temporalInfo := temporalInfo })
    []
  pySort mrelLe (merged.map (fun p => p.2))

end Dedupe

namespace Ingest

/-- _is_primitive from reset_and_ingest_stakeholder_output.py: strings,
ints, floats, bools and None. -/
def isPrimitive : Value → Bool
  | .vNone => true
  | .vBool _ => true
  | .vInt _ => true
  | .vStr _ => true
  | _ => false

/-- JSON string quoting for the serialization fallback; the escaping
covers the characters occurring in the pipeline data. -/
def jsonQuote (s : String) : String :=
  "\"" ++ String.join (s.toList.map (fun c =>
    if c = '"' then "\\\""
    else if c = '\\' then "\\\\"
    else if c = '\n' then "\\n"
    else if c = '\t' then "\\t"
    else if c = '\r' then "\\r"
    else String.mk [c])) ++ "\""

def joinComma : List String → String
  | [] => ""
  | [s] => s
  | s :: rest => s ++ ", " ++ joinComma rest

/-- Fuel-indexed body of json.dumps with sorted keys; the fuel only
bounds the recursion through the key-sorted dictionary entries, and the
wrapper below supplies enough of it for every value. -/
def jsonDumpsF : Nat → Value → String
  | _, .vNone => "null"
  | _, .vBool b => if b then "true" else "false"
  | _, .vInt n => toString n
  | _, .vStr s => jsonQuote s
  | 0, _ => ""
  | n + 1, .vList items => "[" ++ joinComma (items.map (jsonDumpsF n)) ++ "]"
  | n + 1, .vDict entries =>
      "\x7b" ++ joinComma ((pySort (fun (a b : String × Value) => a.1 ≤ b.1) entries).map
        (fun kv => jsonQuote kv.1 ++ ": " ++ jsonDumpsF n kv.2)) ++ "\x7d"

mutual

def vsize : Value → Nat
  | .vList items => vsizeList items + 1
  | .vDict entries => vsizeDict entries + 1
  | _ => 1

def vsizeList : List Value → Nat
  | [] => 0
  | v :: rest => vsize v + vsizeList rest + 1

def vsizeDict : List (String × Value) → Nat
  | [] => 0
  | (_, v) :: rest => vsize v + vsizeDict rest + 1

end

/-- json.dumps with ensure_ascii disabled and sorted keys, as the
serialization fallback of sanitize_properties applies it. -/
def jsonDumps (v : Value) : String := jsonDumpsF (vsize v) v

/-- The per-entry body of sanitize_properties: keep primitives and
all-primitive lists, drop empty dicts, and JSON-serialize every other
container; the final string fallback of the source covers Python values
outside the JSON type and is kept for exhaustiveness. -/
def sanitizeStep (safe : List (String × Value)) (kv : String × Value) :
    List (String × Value) :=
  if isPrimitive kv.2 then aset safe kv.1 kv.2
  else
    match kv.2 with
    | .vList items =>
        if items.all isPrimitive then aset safe kv.1 (.vList items)
        else aset safe kv.1 (.vStr (jsonDumps (.vList items)))
    | .vDict entries =>
        if entries.isEmpty then safe
        else aset safe kv.1 (.vStr (jsonDumps (.vDict entries)))
    | other => aset safe kv.1 (.vStr (pyStr other))

/-- sanitize_properties over a property bag. -/
def sanitizeProperties (properties : List (String × Value)) : List (String × Value) :=
  properties.foldl sanitizeStep []

/-- The shape contract of the sink: a delivered value is primitive, an
array of primitives, or a (JSON-serialized) string. -/
def sinkSafe (v : Value) : Prop :=
  isPrimitive v = true ∨
  (∃ items, v = Value.vList items ∧ items.all isPrimitive = true) ∨
  v.isStr = true

end Ingest

/-! Toolkit lemmas about the association-list dictionary model. -/

section AList

variable {κ α : Type} [DecidableEq κ]

theorem aget_nil (k : κ) : aget ([] : List (κ × α)) k = none := rfl

theorem aget_cons (k0 : κ) (v0 : α) (m : List (κ × α)) (k : κ) :
    aget ((k0, v0) :: m) k = if k0 = k then some v0 else aget m k := by
  by_cases h : k0 = k <;> simp [aget, List.find?_cons, h]

theorem aget_aset_self (m : List (κ × α)) (k : κ) (v : α) :
    aget (aset m k v) k = some v := by
  induction m with
  | nil => simp [aset, aget_cons]
  | cons p rest ih =>
      obtain ⟨k0, v0⟩ := p
      by_cases h : k0 = k
      · simp [aset, h, aget_cons]
      · simp [aset, h, aget_cons, ih]

theorem aget_aset_ne (m : List (κ × α)) (k k' : κ) (v : α) (h : k' ≠ k) :
    aget (aset m k v) k' = aget m k' := by
  induction m with
  | nil => simp [aset, aget_cons, Ne.symm h]
  | cons p rest ih =>
      obtain ⟨k0, v0⟩ := p
      by_cases hk : k0 = k
      · subst hk
        simp [aset, aget_cons, Ne.symm h]
      · simp [aset, hk, aget_cons, ih]

theorem mem_aset (m : List (κ × α)) (k : κ) (v : α) (p : κ × α)
    (h : p ∈ aset m k v) : p = (k, v) ∨ p ∈ m := by
  induction m with
  | nil => simp [aset] at h; simp [h]
  | cons q rest ih =>
      obtain ⟨k0, v0⟩ := q
      by_cases hk : k0 = k
      · subst hk
        simp [aset] at h
        rcases h with h | h
        · exact Or.inl (by simp [h])
        · exact Or.inr (by simp [h])
      · simp [aset, hk] at h
        rcases h with h | h
        · exact Or.inr (by simp [h])
        · rcases ih h with h1 | h1
          · exact Or.inl h1
          · exact Or.inr (by simp [h1])

theorem aget_mem (m : List (κ × α)) (k : κ) (v : α) (h : aget m k = some v) :
    (k, v) ∈ m := by
  induction m with
  | nil => simp [aget_nil] at h
  | cons q rest ih =>
      obtain ⟨k0, v0⟩ := q
      rw [aget_cons] at h
      by_cases hk : k0 = k
      · simp [hk] at h
        simp [hk, h]
      · simp [hk] at h
        exact List.mem_cons_of_mem _ (ih h)

theorem aget_eq_none_of_not_mem_keys (m : List (κ × α)) (k : κ)
    (h : k ∉ m.map Prod.fst) : aget m k = none := by
  induction m with
  | nil => rfl
  | cons q rest ih =>
      obtain ⟨k0, v0⟩ := q
      have h1 : ¬ k0 = k := by intro hh; exact h (by simp [hh])
      have h2 : k ∉ rest.map Prod.fst := by intro hh; exact h (by simp [hh])
      rw [aget_cons]
      simp [h1, ih h2]

theorem not_mem_keys_of_aget_eq_none (m : List (κ × α)) (k : κ)
    (h : aget m k = none) : k ∉ m.map Prod.fst := by
  induction m with
  | nil => simp
  | cons q rest ih =>
      obtain ⟨k0, v0⟩ := q
      rw [aget_cons] at h
      by_cases hk : k0 = k
      · simp [hk] at h
      · simp [hk] at h
        simp [Ne.symm hk, ih h]

theorem aget_append (m m' : List (κ × α)) (k : κ) :
    aget (m ++ m') k = match aget m k with
      | some v => some v
      | none => aget m' k := by
  induction m with
  | nil => simp [aget_nil]
  | cons q rest ih =>
      obtain ⟨k0, v0⟩ := q
      by_cases hk : k0 = k <;> simp [aget_cons, hk, ih]

theorem keys_aset (m : List (κ × α)) (k : κ) (v : α) :
    (aset m k v).map Prod.fst =
      if k ∈ m.map Prod.fst then m.map Prod.fst else m.map Prod.fst ++ [k] := by
  induction m with
  | nil => simp [aset]
  | cons q rest ih =>
      obtain ⟨k0, v0⟩ := q
      by_cases hk : k0 = k
      · subst hk
        simp [aset]
      · by_cases hmem : k ∈ rest.map Prod.fst
        · have hmem2 : k ∈ k0 :: rest.map Prod.fst := List.mem_cons_of_mem _ hmem
          simp only [aset, if_neg hk, List.map_cons, ih, if_pos hmem, if_pos hmem2]
        · have hmem2 : k ∉ k0 :: rest.map Prod.fst := by
            intro hc
            rcases List.mem_cons.1 hc with hc | hc
            · exact hk hc.symm
            · exact hmem hc
          simp only [aset, if_neg hk, List.map_cons, ih, if_neg hmem, if_neg hmem2,
            List.cons_append]

theorem aget_aappend_ne (m : List (κ × List α)) (k k' : κ) (x : α) (h : k' ≠ k) :
    aget (aappend m k x) k' = aget m k' := by
  unfold aappend
  cases hm : aget m k with
  | none =>
      rw [aget_append]
      cases hg : aget m k' with
      | none => simp [aget_cons, Ne.symm h, aget_nil]
      | some v => simp
  | some xs => exact aget_aset_ne _ _ _ _ h

theorem aget_aappend_self (m : List (κ × List α)) (k : κ) (x : α) :
    aget (aappend m k x) k = some ((aget m k).getD [] ++ [x]) := by
  unfold aappend
  cases hm : aget m k with
  | none =>
      rw [aget_append, hm]
      simp [aget_cons]
  | some xs => simp [aget_aset_self]

end AList

/-! Toolkit lemmas about the dedup-append folds behind merge_lists. -/

theorem mem_dedupAppend_foldl {α : Type} [DecidableEq α] (items : List α)
    (acc : List α) (x : α) :
    x ∈ items.foldl (fun a item => if item ∈ a then a else a ++ [item]) acc ↔
      x ∈ acc ∨ x ∈ items := by
  induction items generalizing acc with
  | nil => simp
  | cons i rest ih =>
      simp only [List.foldl_cons]
      by_cases hi : i ∈ acc
      · rw [ih]
        simp [hi]
        constructor
        · rintro (h | h)
          · exact Or.inl h
          · exact Or.inr (Or.inr h)
        · rintro (h | h | h)
          · exact Or.inl h
          · subst h; exact Or.inl hi
          · exact Or.inr h
      · rw [ih]
        simp [hi]
        constructor
        · rintro (h | h)
          · rcases h with h | h
            · exact Or.inl h
            · exact Or.inr (Or.inl h)
          · exact Or.inr (Or.inr h)
        · rintro (h | h | h)
          · exact Or.inl (Or.inl h)
          · exact Or.inl (Or.inr h)
          · exact Or.inr h

theorem dedupAppend_foldl_length_le {α : Type} [DecidableEq α] (items : List α)
    (acc : List α) :
    acc.length ≤ (items.foldl (fun a item => if item ∈ a then a else a ++ [item]) acc).length := by
  induction items generalizing acc with
  | nil => simp
  | cons i rest ih =>
      simp only [List.foldl_cons]
      by_cases hi : i ∈ acc
      · simpa [hi] using ih acc
      · have := ih (acc ++ [i])
        simp [hi] at this ⊢
        omega

theorem mem_mergeStrLists (left right : List String) (x : String) :
    x ∈ Builder.mergeStrLists left right ↔ x ∈ left ∨ x ∈ right := by
  unfold Builder.mergeStrLists
  rw [mem_dedupAppend_foldl]
  simp

/-- The elements a value contributes to a merge_lists union: nothing for
None, the items of a list, and the value itself otherwise. -/
def valMembers : Value → List Value
  | .vNone => []
  | .vList items => items
  | v => [v]

theorem mem_mergeInto (acc : List Value) (v : Value) (x : Value) :
    x ∈ Builder.mergeInto acc v ↔ x ∈ acc ∨ x ∈ valMembers v := by
  cases v with
  | vNone => simp [Builder.mergeInto, valMembers]
  | vList items => simp [Builder.mergeInto, valMembers, mem_dedupAppend_foldl]
  | vBool b =>
      by_cases h : Value.vBool b ∈ acc <;>
        simp [Builder.mergeInto, valMembers, h] <;> aesop
  | vInt n =>
      by_cases h : Value.vInt n ∈ acc <;>
        simp [Builder.mergeInto, valMembers, h] <;> aesop
  | vStr s =>
      by_cases h : Value.vStr s ∈ acc <;>
        simp [Builder.mergeInto, valMembers, h] <;> aesop
  | vDict entries =>
      by_cases h : Value.vDict entries ∈ acc <;>
        simp [Builder.mergeInto, valMembers, h] <;> aesop

theorem mem_mergeLists (left right : Value) (x : Value) :
    x ∈ Builder.mergeLists left right ↔ x ∈ valMembers left ∨ x ∈ valMembers right := by
  unfold Builder.mergeLists
  rw [mem_mergeInto, mem_mergeInto]
  simp

theorem mergeLists_ne_nil (left right : Value) (h : isEmptyVal left = false) :
    Builder.mergeLists left right ≠ [] := by
  intro hc
  have hm : ∀ x, x ∈ valMembers left → False := by
    intro x hx
    have := (mem_mergeLists left right x).2 (Or.inl hx)
    rw [hc] at this
    simp at this
  cases left with
  | vNone => simp [isEmptyVal] at h
  | vBool b => exact hm (Value.vBool b) (by simp [valMembers])
  | vInt n => exact hm (Value.vInt n) (by simp [valMembers])
  | vStr s => exact hm (Value.vStr s) (by simp [valMembers])
  | vList items =>
      cases items with
      | nil => simp [isEmptyVal] at h
      | cons i rest => exact hm i (by simp [valMembers])
  | vDict entries => exact hm (Value.vDict entries) (by simp [valMembers])

theorem getProp_ite_aset_ne (c : Prop) [Decidable c] (m : List (String × Value))
    (k k' : String) (v : Value) (h : k' ≠ k) :
    getProp (if c then aset m k v else m) k' = getProp m k' := by
  split
  · exact aget_aset_ne _ _ _ _ h
  · rfl

theorem aget_ite_aset_ne {α : Type} (c : Prop) [Decidable c]
    (m : List (String × α)) (k k' : String) (v : α) (h : k' ≠ k) :
    aget (if c then aset m k v else m) k' = aget m k' := by
  split
  · exact aget_aset_ne _ _ _ _ h
  · rfl

theorem isEmptyVal_vList_eq_false_iff (l : List Value) :
    isEmptyVal (Value.vList l) = false ↔ l ≠ [] := by
  cases l <;> simp [isEmptyVal]

theorem isEmptyVal_vStr_eq_false_iff (s : String) :
    isEmptyVal (Value.vStr s) = false ↔ s ≠ "" := by
  by_cases h : s = "" <;> simp [isEmptyVal, h]

/-! Claim C8: generic string property reconciliation. -/

/-- Claim C8 counterexample: in _choose_property_value, with the existing
value from the strictly higher-priority source (priority 2 against 1),
the longer incoming string still wins, contradicting the claim that the
higher-priority value is chosen whenever the priorities differ and the
length only breaks ties. -/
theorem c8_counterexample :
    (2 : Int) ≠ (1 : Int) ∧
    Builder.choosePropertyValue "color" (Value.vStr "ab") (Value.vStr "abc") 2 1 =
      Value.vStr "abc" ∧
    Value.vStr "abc" ≠ Value.vStr "ab" := by
  refine ⟨by decide, by decide, by decide⟩

/-- Claim C8 (amended): for a generic string key (not description, not
domain) and non-empty existing and incoming strings, the incoming value
wins exactly when its priority is strictly higher; otherwise the longer
string wins, the existing value being kept on equal lengths (so a longer
incoming string also beats a strictly higher-priority existing value). -/
theorem c8_generic_string_priority (key : String) (ev iv : String) (pe pi : Int)
    (hk1 : key ≠ "description") (hk2 : key ≠ "domain")
    (he : ev ≠ "") (hi : iv ≠ "") :
    Builder.choosePropertyValue key (.vStr ev) (.vStr iv) pe pi =
      (if pi > pe then Value.vStr iv
       else if ev.length ≥ iv.length then Value.vStr ev else Value.vStr iv) := by
  unfold Builder.choosePropertyValue
  have hiv : isEmptyVal (Value.vStr iv) = false := (isEmptyVal_vStr_eq_false_iff iv).2 hi
  have hev : isEmptyVal (Value.vStr ev) = false := (isEmptyVal_vStr_eq_false_iff ev).2 he
  simp [hiv, hev, Value.isList, Value.isStr, Value.strOf, hk1, hk2]

/-- Claim C8 witness: the amended rule evaluated at a concrete input. -/
theorem c8_generic_string_priority_witness :
    Builder.choosePropertyValue "color" (Value.vStr "ab") (Value.vStr "abc") 2 1 =
      (if (1 : Int) > 2 then Value.vStr "abc"
       else if ("ab".length ≥ "abc".length) then Value.vStr "ab" else Value.vStr "abc") :=
  c8_generic_string_priority "color" "ab" "abc" 2 1 (by decide) (by decide)
    (by decide) (by decide)

/-! Claim C3: non-destructive property merging. -/

/-- Claim C3 counterexample: in _choose_property_value under the domain
key, a non-empty existing value is merged to the empty string, because
the domain branch re-normalizes the winning value and normalization of a
string without alphanumeric characters is empty: existing "x" (priority
1) against incoming "!!!" (priority 2) yields "", an empty value, even
though the existing value was non-empty. -/
theorem c3_counterexample :
    isEmptyVal (Value.vStr "x") = false ∧
    Builder.choosePropertyValue "domain" (Value.vStr "x") (Value.vStr "!!!") 1 2 =
      Value.vStr "" ∧
    isEmptyVal (Value.vStr "") = true := by
  refine ⟨by decide, by decide, by decide⟩

/-- Claim C3 (amended): property merging is non-destructive up to domain
normalization. In _choose_property_value: an empty incoming value always
keeps the existing value unchanged; a non-empty incoming value replaces
an empty existing value; and a non-empty existing value never merges to
an empty value for any key other than domain, while for the domain key
the same holds whenever both values are fixed points of domain
normalization (as all domain values stored by the pipeline are). In the
per-key update of _merge_nodes: a non-empty existing value is kept
unchanged, and a missing or empty existing value is overwritten by the
incoming value (so when both are empty the incoming representation
wins). -/
theorem c3_nondestructive_merge :
    (∀ (key : String) (ev iv : Value) (pe pi : Int),
        isEmptyVal iv = true →
        Builder.choosePropertyValue key ev iv pe pi = ev) ∧
    (∀ (key : String) (ev iv : Value) (pe pi : Int),
        isEmptyVal iv = false → isEmptyVal ev = true →
        Builder.choosePropertyValue key ev iv pe pi = iv) ∧
    (∀ (key : String) (ev iv : Value) (pe pi : Int),
        isEmptyVal ev = false → key ≠ "domain" →
        isEmptyVal (Builder.choosePropertyValue key ev iv pe pi) = false) ∧
    (∀ (ev iv : Value) (pe pi : Int),
        isEmptyVal ev = false →
        Builder.normalizeDomain ev = ev → Builder.normalizeDomain iv = iv →
        isEmptyVal (Builder.choosePropertyValue "domain" ev iv pe pi) = false) ∧
    (∀ (props : List (String × Value)) (key : String) (v w : Value),
        getProp props key = some w → isEmptyVal w = false →
        Dedupe.fillProp props key v = props) ∧
    (∀ (props : List (String × Value)) (key : String) (v : Value),
        (getProp props key = none ∨ ∃ w, getProp props key = some w ∧ isEmptyVal w = true) →
        getProp (Dedupe.fillProp props key v) key = some v) := by
  refine ⟨?_, ?_, ?_, ?_, ?_, ?_⟩
  · intro key ev iv pe pi hiv
    simp [Builder.choosePropertyValue, hiv]
  · intro key ev iv pe pi hiv hev
    simp [Builder.choosePropertyValue, hiv, hev]
  · intro key ev iv pe pi hev hk
    by_cases hiv : isEmptyVal iv = true
    · unfold Builder.choosePropertyValue
      rw [if_pos hiv]
      exact hev
    · have hivf : isEmptyVal iv = false := by rw [Bool.not_eq_true] at hiv; exact hiv
      have hevn : ¬ isEmptyVal ev = true := by simp [hev]
      unfold Builder.choosePropertyValue
      rw [if_neg hiv, if_neg hevn]
      by_cases hl : (ev.isList || iv.isList) = true
      · rw [if_pos hl, isEmptyVal_vList_eq_false_iff]
        exact mergeLists_ne_nil ev iv hev
      · rw [if_neg hl]
        by_cases hd : (decide (key = "description") && ev.isStr && iv.isStr) = true
        · rw [if_pos hd]
          split
          · exact hivf
          · exact hev
        · rw [if_neg hd, if_neg hk]
          by_cases hs : (ev.isStr && iv.isStr) = true
          · rw [if_pos hs]
            split
            · exact hivf
            · split
              · exact hev
              · exact hivf
          · rw [if_neg hs]
            split
            · exact hivf
            · exact hev
  · intro ev iv pe pi hev hne hni
    by_cases hiv : isEmptyVal iv = true
    · unfold Builder.choosePropertyValue
      rw [if_pos hiv]
      exact hev
    · have hivf : isEmptyVal iv = false := by rw [Bool.not_eq_true] at hiv; exact hiv
      have hevn : ¬ isEmptyVal ev = true := by simp [hev]
      unfold Builder.choosePropertyValue
      rw [if_neg hiv, if_neg hevn]
      by_cases hl : (ev.isList || iv.isList) = true
      · rw [if_pos hl, isEmptyVal_vList_eq_false_iff]
        exact mergeLists_ne_nil ev iv hev
      · rw [if_neg hl]
        have hd : ¬ ((decide (("domain" : String) = "description") && ev.isStr && iv.isStr) = true) := by
          simp
        rw [if_neg hd, if_pos rfl]
        split
        · rw [hni]; exact hivf
        · rw [hne]; exact hev
  · intro props key v w hw hne
    unfold Dedupe.fillProp
    rw [hw]
    simp only [hne, Bool.false_eq_true, if_false]
  · intro props key v h
    unfold Dedupe.fillProp
    rcases h with h | ⟨w, hw, hwe⟩
    · rw [h]
      exact aget_aset_self _ _ _
    · rw [hw]
      simp only [hwe, if_true]
      exact aget_aset_self _ _ _

/-- Claim C3 witness: the amended rules evaluated at concrete inputs. -/
theorem c3_nondestructive_merge_witness :
    Builder.choosePropertyValue "k" (Value.vStr "a") Value.vNone 1 1 = Value.vStr "a" ∧
    Builder.choosePropertyValue "k" (Value.vList []) (Value.vStr "b") 1 1 = Value.vStr "b" ∧
    isEmptyVal (Builder.choosePropertyValue "k" (Value.vStr "a") (Value.vStr "b") 1 2) = false ∧
    isEmptyVal (Builder.choosePropertyValue "domain"
      (Value.vStr "hardware") (Value.vStr "software") 1 2) = false ∧
    Dedupe.fillProp [("k", Value.vStr "a")] "k" (Value.vStr "b") = [("k", Value.vStr "a")] ∧
    getProp (Dedupe.fillProp [("k", Value.vStr "")] "k" (Value.vStr "b")) "k" =
      some (Value.vStr "b") :=
  ⟨c3_nondestructive_merge.1 "k" (Value.vStr "a") Value.vNone 1 1 (by decide),
   c3_nondestructive_merge.2.1 "k" (Value.vList []) (Value.vStr "b") 1 1 (by decide) (by decide),
   c3_nondestructive_merge.2.2.1 "k" (Value.vStr "a") (Value.vStr "b") 1 2 (by decide) (by decide),
   c3_nondestructive_merge.2.2.2.1 (Value.vStr "hardware") (Value.vStr "software") 1 2
     (by decide) (by decide) (by decide),
   c3_nondestructive_merge.2.2.2.2.1 [("k", Value.vStr "a")] "k" (Value.vStr "b")
     (Value.vStr "a") (by decide) (by decide),
   c3_nondestructive_merge.2.2.2.2.2 [("k", Value.vStr "")] "k" (Value.vStr "b")
     (Or.inr ⟨Value.vStr "", by decide, by decide⟩)⟩

/-! Claim C9: sanitized property bags for the downstream sink. -/

theorem sanitizeStep_untouched (safe : List (String × Value)) (kv : String × Value)
    (k : String) (h : kv.1 ≠ k) :
    aget (Ingest.sanitizeStep safe kv) k = aget safe k := by
  unfold Ingest.sanitizeStep
  split
  · exact aget_aset_ne _ _ _ _ (Ne.symm h)
  · split
    · split
      · exact aget_aset_ne _ _ _ _ (Ne.symm h)
      · exact aget_aset_ne _ _ _ _ (Ne.symm h)
    · split
      · rfl
      · exact aget_aset_ne _ _ _ _ (Ne.symm h)
    · exact aget_aset_ne _ _ _ _ (Ne.symm h)

theorem sanitizeFold_untouched (props : List (String × Value))
    (acc : List (String × Value)) (k : String)
    (h : ∀ kv ∈ props, kv.1 ≠ k) :
    aget (props.foldl Ingest.sanitizeStep acc) k = aget acc k := by
  induction props generalizing acc with
  | nil => rfl
  | cons kv rest ih =>
      rw [List.foldl_cons, ih _ (fun p hp => h p (List.mem_cons_of_mem _ hp))]
      exact sanitizeStep_untouched acc kv k (h kv (List.mem_cons_self _ _))

theorem sanitizeFold_safe (props : List (String × Value))
    (acc : List (String × Value))
    (hacc : ∀ kv ∈ acc, Ingest.sinkSafe kv.2) :
    ∀ kv ∈ props.foldl Ingest.sanitizeStep acc, Ingest.sinkSafe kv.2 := by
  induction props generalizing acc with
  | nil => exact hacc
  | cons kv0 rest ih =>
      rw [List.foldl_cons]
      refine ih _ ?_
      intro p hp
      unfold Ingest.sanitizeStep at hp
      split at hp
      · rcases mem_aset _ _ _ _ hp with h | h
        · rw [h]
          exact Or.inl (by assumption)
        · exact hacc p h
      · split at hp
        · split at hp
          · rcases mem_aset _ _ _ _ hp with h | h
            · rw [h]
              exact Or.inr (Or.inl ⟨_, rfl, by assumption⟩)
            · exact hacc p h
          · rcases mem_aset _ _ _ _ hp with h | h
            · rw [h]
              exact Or.inr (Or.inr rfl)
            · exact hacc p h
        · split at hp
          · exact hacc p hp
          · rcases mem_aset _ _ _ _ hp with h | h
            · rw [h]
              exact Or.inr (Or.inr rfl)
            · exact hacc p h
        · rcases mem_aset _ _ _ _ hp with h | h
          · rw [h]
            exact Or.inr (Or.inr rfl)
          · exact hacc p h

/-- Claim C9 counterexample: a key holding an empty list is not dropped
by sanitize_properties; the vacuous all-primitives check keeps it, so an
empty-list value is delivered to the sink, contradicting the claim that
empty lists are dropped before delivery. -/
theorem c9_counterexample :
    Ingest.sanitizeProperties [("k", Value.vList [])] = [("k", Value.vList [])] ∧
    Value.vList [] = Value.vList [] := by
  exact ⟨by decide, rfl⟩

/-- Claim C9 (amended): every value delivered by sanitize_properties is a
primitive, an array of primitives, or a JSON-serialized string (no nested
structures); every key holding an empty map is dropped; but a key holding
an empty list is kept with its empty list (the all-primitives check holds
vacuously), not dropped. -/
theorem c9_sanitize_shape (props : List (String × Value))
    (hnd : (props.map Prod.fst).Nodup) :
    (∀ kv ∈ Ingest.sanitizeProperties props, Ingest.sinkSafe kv.2) ∧
    (∀ k, (k, Value.vDict []) ∈ props →
      aget (Ingest.sanitizeProperties props) k = none) ∧
    (∀ k, (k, Value.vList []) ∈ props →
      aget (Ingest.sanitizeProperties props) k = some (Value.vList [])) := by
  refine ⟨?_, ?_, ?_⟩
  · exact sanitizeFold_safe props [] (by intro kv h; simp at h)
  · intro k hk
    obtain ⟨l1, l2, hdec⟩ := List.append_of_mem hk
    subst hdec
    have hnd' := hnd
    rw [List.map_append, List.map_cons, List.nodup_append] at hnd'
    have hk1 : ∀ kv ∈ l1, kv.1 ≠ k := by
      intro kv hkv hc
      exact hnd'.2.2 (List.mem_map_of_mem Prod.fst hkv) (by rw [hc]; simp)
    have hk2 : ∀ kv ∈ l2, kv.1 ≠ k := by
      intro kv hkv hc
      have hin : kv.1 ∈ l2.map Prod.fst := List.mem_map_of_mem Prod.fst hkv
      exact (List.nodup_cons.1 hnd'.2.1).1 (hc ▸ hin)
    unfold Ingest.sanitizeProperties
    rw [List.foldl_append, List.foldl_cons]
    have hstep : Ingest.sanitizeStep (l1.foldl Ingest.sanitizeStep []) (k, Value.vDict []) =
        l1.foldl Ingest.sanitizeStep [] := by
      unfold Ingest.sanitizeStep
      simp [Ingest.isPrimitive]
    rw [sanitizeFold_untouched _ _ _ hk2, hstep, sanitizeFold_untouched _ _ _ hk1]
    rfl
  · intro k hk
    obtain ⟨l1, l2, hdec⟩ := List.append_of_mem hk
    subst hdec
    have hnd' := hnd
    rw [List.map_append, List.map_cons, List.nodup_append] at hnd'
    have hk2 : ∀ kv ∈ l2, kv.1 ≠ k := by
      intro kv hkv hc
      have hin : kv.1 ∈ l2.map Prod.fst := List.mem_map_of_mem Prod.fst hkv
      exact (List.nodup_cons.1 hnd'.2.1).1 (hc ▸ hin)
    unfold Ingest.sanitizeProperties
    rw [List.foldl_append, List.foldl_cons]
    have hstep : Ingest.sanitizeStep (l1.foldl Ingest.sanitizeStep []) (k, Value.vList []) =
        aset (l1.foldl Ingest.sanitizeStep []) k (Value.vList []) := by
      unfold Ingest.sanitizeStep
      simp [Ingest.isPrimitive]
    rw [sanitizeFold_untouched _ _ _ hk2, hstep]
    exact aget_aset_self _ _ _

/-- Claim C9 witness: the amended sanitization contract evaluated at a
concrete property bag with a primitive, a nested dict, an empty dict and
an empty list. -/
theorem c9_sanitize_shape_witness :
    (∀ kv ∈ Ingest.sanitizeProperties
        [("a", Value.vStr "x"), ("b", Value.vDict [("c", Value.vInt 1)]),
         ("d", Value.vDict []), ("e", Value.vList [])], Ingest.sinkSafe kv.2) ∧
    aget (Ingest.sanitizeProperties
        [("a", Value.vStr "x"), ("b", Value.vDict [("c", Value.vInt 1)]),
         ("d", Value.vDict []), ("e", Value.vList [])]) "d" = none ∧
    aget (Ingest.sanitizeProperties
        [("a", Value.vStr "x"), ("b", Value.vDict [("c", Value.vInt 1)]),
         ("d", Value.vDict []), ("e", Value.vList [])]) "e" = some (Value.vList []) := by
  have h := c9_sanitize_shape
    [("a", Value.vStr "x"), ("b", Value.vDict [("c", Value.vInt 1)]),
     ("d", Value.vDict []), ("e", Value.vList [])] (by decide)
  exact ⟨h.1, h.2.1 "d" (by decide), h.2.2 "e" (by decide)⟩

/-! Claim C10: the final relationship remap collision policy. -/

/-- Claim C10: when _remap_relationships collapses a relationship record
onto a key already present in the rebuilt store, the surviving record has
the sum of the occurrences, the longer of the two context strings, and
exactly the confidence the first-encountered record carried: the
confidence key is not re-compared at this stage, whatever the incoming
confidence is. -/
theorem c10_remap_collision (b : Builder.CGB) (remap : List (String × String))
    (acc : List ((String × String × String) × Builder.BRel)) (ded drop : Nat)
    (rel existingRel : Builder.BRel) (n m : Int) (ec ic : String)
    (hs : ((aget b.nodes ((aget remap rel.source).getD rel.source)).isNone ||
           (aget b.nodes ((aget remap rel.target).getD rel.target)).isNone) = false)
    (hex : aget acc ((aget remap rel.source).getD rel.source,
                     (aget remap rel.target).getD rel.target, rel.type) = some existingRel)
    (hocc1 : getProp existingRel.properties "occurrences" = some (.vInt n))
    (hocc2 : getProp rel.properties "occurrences" = some (.vInt m))
    (hctx1 : getProp existingRel.properties "context" = some (.vStr ec))
    (hctx2 : getProp rel.properties "context" = some (.vStr ic)) :
    ∃ newRel : Builder.BRel,
      aget (Builder.remapRelStep b remap (acc, ded, drop) rel).1
          ((aget remap rel.source).getD rel.source,
           (aget remap rel.target).getD rel.target, rel.type) = some newRel ∧
      getProp newRel.properties "occurrences" = some (.vInt (n + m)) ∧
      getProp newRel.properties "context" =
        some (.vStr (if ic.length > ec.length then ic else ec)) ∧
      getProp newRel.properties "confidence" = getProp existingRel.properties "confidence" ∧
      (Builder.remapRelStep b remap (acc, ded, drop) rel).2.1 = ded + 1 := by
  have hocc1' : ∀ X, getProp (aset existingRel.properties "source_files" X) "occurrences" =
      some (Value.vInt n) := by
    intro X
    unfold getProp
    rw [aget_aset_ne _ _ _ _ (by decide)]
    exact hocc1
  have hctx1' : ∀ X Y, getProp
      (aset (aset existingRel.properties "source_files" X) "occurrences" Y) "context" =
      some (Value.vStr ec) := by
    intro X Y
    unfold getProp
    rw [aget_aset_ne _ _ _ _ (by decide), aget_aset_ne _ _ _ _ (by decide)]
    exact hctx1
  unfold Builder.remapRelStep
  dsimp only [getPropD]
  rw [hs]
  simp only [Bool.false_eq_true, if_false]
  rw [hex]
  dsimp only [getPropD]
  rw [hocc1', hocc2, hctx1', hctx2]
  simp only [Option.getD_some]
  simp only [pyInt, pyStr]
  refine ⟨_, aget_aset_self _ _ _, ?_, ?_, ?_, trivial⟩
  · by_cases hlen : ic.length > ec.length
    · simp only [if_pos hlen]
      unfold getProp
      rw [aget_aset_ne _ _ _ _ (by decide), aget_aset_self]
    · simp only [if_neg hlen]
      unfold getProp
      rw [aget_aset_self]
  · by_cases hlen : ic.length > ec.length
    · simp only [if_pos hlen]
      unfold getProp
      rw [aget_aset_self]
    · simp only [if_neg hlen]
      exact (hctx1' _ _)
  · by_cases hlen : ic.length > ec.length
    · simp only [if_pos hlen]
      unfold getProp
      rw [aget_aset_ne _ _ _ _ (by decide), aget_aset_ne _ _ _ _ (by decide),
        aget_aset_ne _ _ _ _ (by decide)]
    · simp only [if_neg hlen]
      unfold getProp
      rw [aget_aset_ne _ _ _ _ (by decide), aget_aset_ne _ _ _ _ (by decide)]

/-- Claim C10 witness: a concrete collision where the first record holds
confidence low and the incoming record confidence high; the survivor has
summed occurrences 5, the longer context, and keeps confidence low. -/
theorem c10_remap_collision_witness :
    ∃ newRel : Builder.BRel,
      aget (Builder.remapRelStep
          { nodes := [("a", ⟨"a", [], [], 1, [], []⟩), ("b", ⟨"b", [], [], 1, [], []⟩)],
            relationships := [], aliases := [], stats := {} }
          []
          ([(("a", "b", "T"),
             ⟨"a", "b", "T",
              [("occurrences", Value.vInt 2), ("context", Value.vStr "long ctx"),
               ("confidence", Value.vStr "low")]⟩)], 0, 0)
          ⟨"a", "b", "T",
           [("occurrences", Value.vInt 3), ("context", Value.vStr "x"),
            ("confidence", Value.vStr "high")]⟩).1 ("a", "b", "T") = some newRel ∧
      getProp newRel.properties "occurrences" = some (.vInt (2 + 3)) ∧
      getProp newRel.properties "context" =
        some (.vStr (if ("x" : String).length > ("long ctx" : String).length
                     then "x" else "long ctx")) ∧
      getProp newRel.properties "confidence" =
        getProp [("occurrences", Value.vInt 2), ("context", Value.vStr "long ctx"),
                 ("confidence", Value.vStr "low")] "confidence" ∧
      (Builder.remapRelStep
          { nodes := [("a", ⟨"a", [], [], 1, [], []⟩), ("b", ⟨"b", [], [], 1, [], []⟩)],
            relationships := [], aliases := [], stats := {} }
          []
          ([(("a", "b", "T"),
             ⟨"a", "b", "T",
              [("occurrences", Value.vInt 2), ("context", Value.vStr "long ctx"),
               ("confidence", Value.vStr "low")]⟩)], 0, 0)
          ⟨"a", "b", "T",
           [("occurrences", Value.vInt 3), ("context", Value.vStr "x"),
            ("confidence", Value.vStr "high")]⟩).2.1 = 0 + 1 :=
  c10_remap_collision
    { nodes := [("a", ⟨"a", [], [], 1, [], []⟩), ("b", ⟨"b", [], [], 1, [], []⟩)],
      relationships := [], aliases := [], stats := {} }
    []
    [(("a", "b", "T"),
      ⟨"a", "b", "T",
       [("occurrences", Value.vInt 2), ("context", Value.vStr "long ctx"),
        ("confidence", Value.vStr "low")]⟩)]
    0 0
    ⟨"a", "b", "T",
     [("occurrences", Value.vInt 3), ("context", Value.vStr "x"),
      ("confidence", Value.vStr "high")]⟩
    ⟨"a", "b", "T",
     [("occurrences", Value.vInt 2), ("context", Value.vStr "long ctx"),
      ("confidence", Value.vStr "low")]⟩
    2 3 "long ctx" "x"
    (by decide) (by decide) (by decide) (by decide) (by decide) (by decide)

/-! Claim C5: relationship re-ingest merging. -/

/-- Claim C5: when ingest_batch receives a relationship whose remapped
(source, target, type) key already exists in the store, the stored record
is merged so that occurrences is incremented by 1, confidence becomes
the higher-ranked of the existing and incoming values under
low < medium < high (never downgraded; the stored confidences of the
pipeline are lowercase, which the two fixed-point hypotheses record),
context becomes the longer of the two context strings, and source_files
becomes the union of the existing list, the incoming list and the current
source file. -/
theorem c5_relationship_remerge (b : Builder.CGB) (rel : Builder.RawRel) (sourceFile : String)
    (existingRel : Builder.BRel) (n : Int) (ec ic ctxE ctxI : String)
    (hkey : aget b.relationships
        ((aget b.aliases (Builder.canonicalizeId rel.source)).getD (Builder.canonicalizeId rel.source),
         (aget b.aliases (Builder.canonicalizeId rel.target)).getD (Builder.canonicalizeId rel.target),
         Builder.normalizeRelationshipType rel.type) = some existingRel)
    (hocc : getProp existingRel.properties "occurrences" = some (.vInt n))
    (hconf1 : getProp existingRel.properties "confidence" = some (.vStr ec))
    (hconf2 : getProp rel.properties "confidence" = some (.vStr ic))
    (hlc1 : pyLower ec = ec) (hlc2 : pyLower ic = ic)
    (hctx1 : getProp existingRel.properties "context" = some (.vStr ctxE))
    (hctx2 : getProp rel.properties "context" = some (.vStr ctxI)) :
    ∃ newRel : Builder.BRel,
      aget (Builder.ingestRel b rel sourceFile).relationships
        ((aget b.aliases (Builder.canonicalizeId rel.source)).getD (Builder.canonicalizeId rel.source),
         (aget b.aliases (Builder.canonicalizeId rel.target)).getD (Builder.canonicalizeId rel.target),
         Builder.normalizeRelationshipType rel.type) = some newRel ∧
      getProp newRel.properties "occurrences" = some (.vInt (n + 1)) ∧
      getProp newRel.properties "confidence" =
        some (.vStr (if Builder.confidenceRank ec < Builder.confidenceRank ic then ic else ec)) ∧
      Builder.confidenceRank
        (if Builder.confidenceRank ec < Builder.confidenceRank ic then ic else ec) =
        max (Builder.confidenceRank ec) (Builder.confidenceRank ic) ∧
      getProp newRel.properties "context" =
        some (.vStr (if ctxE.length < ctxI.length then ctxI else ctxE)) ∧
      (if ctxE.length < ctxI.length then ctxI else ctxE).length =
        max ctxE.length ctxI.length ∧
      (∃ nsf, getProp newRel.properties "source_files" = some (.vList nsf) ∧
        ∀ v, v ∈ nsf ↔
          (v ∈ valMembers (getPropD existingRel.properties "source_files" .vNone) ∨
           v ∈ valMembers (getPropD rel.properties "source_files" .vNone) ∨
           v = .vStr sourceFile)) := by
  have hrp_conf : ∀ D SF OC, getProp
      (aset (aset (aset rel.properties "domain" D) "source_files" SF) "occurrences" OC)
      "confidence" = some (Value.vStr ic) := by
    intro D SF OC
    unfold getProp
    rw [aget_aset_ne _ _ _ _ (by decide), aget_aset_ne _ _ _ _ (by decide),
      aget_aset_ne _ _ _ _ (by decide)]
    exact hconf2
  have hrp_ctx : ∀ D SF OC, getProp
      (aset (aset (aset rel.properties "domain" D) "source_files" SF) "occurrences" OC)
      "context" = some (Value.vStr ctxI) := by
    intro D SF OC
    unfold getProp
    rw [aget_aset_ne _ _ _ _ (by decide), aget_aset_ne _ _ _ _ (by decide),
      aget_aset_ne _ _ _ _ (by decide)]
    exact hctx2
  have hrp_sf : ∀ D SF OC, getProp
      (aset (aset (aset rel.properties "domain" D) "source_files" SF) "occurrences" OC)
      "source_files" = some SF := by
    intro D SF OC
    unfold getProp
    rw [aget_aset_ne _ _ _ _ (by decide)]
    exact aget_aset_self _ _ _
  have hraw_sf : ∀ D, getProp (aset rel.properties "domain" D) "source_files" =
      getProp rel.properties "source_files" := by
    intro D
    exact aget_aset_ne _ _ _ _ (by decide)
  have hep_occ : ∀ SF, getProp (aset existingRel.properties "source_files" SF)
      "occurrences" = some (Value.vInt n) := by
    intro SF
    unfold getProp
    rw [aget_aset_ne _ _ _ _ (by decide)]
    exact hocc
  have hep_conf : ∀ SF OC, getProp
      (aset (aset existingRel.properties "source_files" SF) "occurrences" OC)
      "confidence" = some (Value.vStr ec) := by
    intro SF OC
    unfold getProp
    rw [aget_aset_ne _ _ _ _ (by decide), aget_aset_ne _ _ _ _ (by decide)]
    exact hconf1
  have hep_ctx : ∀ SF OC, getProp
      (aset (aset existingRel.properties "source_files" SF) "occurrences" OC)
      "context" = some (Value.vStr ctxE) := by
    intro SF OC
    unfold getProp
    rw [aget_aset_ne _ _ _ _ (by decide), aget_aset_ne _ _ _ _ (by decide)]
    exact hctx1
  unfold Builder.ingestRel
  dsimp only [getPropD]
  rw [hkey]
  dsimp only [getPropD]
  simp only [hraw_sf, hrp_conf, hrp_ctx, hrp_sf, hep_occ, hep_conf, hep_ctx,
    getProp_ite_aset_ne, ne_eq, String.reduceEq, not_false_eq_true,
    Option.getD_some, pyInt, pyStr]
  rw [hlc1, hlc2]
  rw [aget_aset_self]
  refine ⟨_, rfl, ?_⟩
  refine ⟨?_, ?_, ?_, ?_, ?_, ?_⟩
  · simp only [getProp_ite_aset_ne, ne_eq, String.reduceEq, not_false_eq_true]
    unfold getProp
    exact aget_aset_self _ _ _
  · simp only [getProp_ite_aset_ne, ne_eq, String.reduceEq, not_false_eq_true]
    by_cases hc : Builder.confidenceRank ec < Builder.confidenceRank ic
    · simp only [if_pos hc]
      exact aget_aset_self _ _ _
    · simp only [if_neg hc]
      exact hep_conf _ _
  · by_cases hc : Builder.confidenceRank ec < Builder.confidenceRank ic
    · simp only [if_pos hc]
      omega
    · simp only [if_neg hc]
      omega
  · simp only [getProp_ite_aset_ne, ne_eq, String.reduceEq, not_false_eq_true]
    by_cases hl : ctxE.length < ctxI.length
    · simp only [if_pos hl]
      exact aget_aset_self _ _ _
    · simp only [if_neg hl]
      simp only [getProp_ite_aset_ne, ne_eq, String.reduceEq, not_false_eq_true]
      exact hep_ctx _ _
  · by_cases hl : ctxE.length < ctxI.length
    · simp only [if_pos hl]
      omega
    · simp only [if_neg hl]
      omega
  · simp only [getProp_ite_aset_ne, aget_ite_aset_ne, ne_eq, String.reduceEq,
      not_false_eq_true, getProp, aget_aset_ne, aget_aset_self]
    refine ⟨_, rfl, ?_⟩
    intro v
    rw [mem_mergeLists]
    constructor
    · rintro (h | h)
      · exact Or.inl h
      · simp only [valMembers] at h
        rw [mem_mergeLists] at h
        rcases h with h | h
        · exact Or.inr (Or.inl h)
        · simp [valMembers] at h
          exact Or.inr (Or.inr h)
    · rintro (h | h | h)
      · exact Or.inl h
      · refine Or.inr ?_
        simp only [valMembers]
        rw [mem_mergeLists]
        exact Or.inl h
      · refine Or.inr ?_
        simp only [valMembers]
        rw [mem_mergeLists]
        exact Or.inr (by simp [valMembers, h])

/-- Claim C5 witness: the relationship (pump_a, motor_b, CAUSES) ingested
twice across two batches with confidence low then high ends with
occurrences 2 and confidence high. -/
theorem c5_relationship_remerge_witness :
    ∃ newRel : Builder.BRel,
      aget (Builder.ingestRel
          (Builder.ingestBatch {} [] [⟨"pump_a", "motor_b", "CAUSES",
            [("confidence", Value.vStr "low"), ("context", Value.vStr "ct")]⟩]
            "f1.md" "markdown")
          ⟨"pump_a", "motor_b", "CAUSES",
            [("confidence", Value.vStr "high"), ("context", Value.vStr "moreconte")]⟩
          "f2.md").relationships
        ("pump_a", "motor_b", "CAUSES") = some newRel ∧
      getProp newRel.properties "occurrences" = some (.vInt (1 + 1)) ∧
      getProp newRel.properties "confidence" =
        some (.vStr (if Builder.confidenceRank "low" < Builder.confidenceRank "high"
                     then "high" else "low")) := by
  have h := c5_relationship_remerge
    (Builder.ingestBatch {} [] [⟨"pump_a", "motor_b", "CAUSES",
      [("confidence", Value.vStr "low"), ("context", Value.vStr "ct")]⟩]
      "f1.md" "markdown")
    ⟨"pump_a", "motor_b", "CAUSES",
      [("confidence", Value.vStr "high"), ("context", Value.vStr "moreconte")]⟩
    "f2.md"
    ⟨"pump_a", "motor_b", "CAUSES",
      [("confidence", Value.vStr "low"), ("context", Value.vStr "ct"),
       ("domain", Value.vNone), ("source_files", Value.vList [Value.vStr "f1.md"]),
       ("occurrences", Value.vInt 1)]⟩
    1 "low" "high" "ct" "moreconte"
    (by decide) (by decide) (by decide) (by decide) (by decide) (by decide)
    (by decide) (by decide)
  obtain ⟨r, h1, h2, h3, _⟩ := h
  exact ⟨r, h1, h2, h3⟩



/-- An accepted merge edge is justified by a passing judge verdict on a
candidate pair. -/
def edgeOk (cfg : Dedupe.DCfg) (judge : Dedupe.DRec → Dedupe.DRec → Option Dedupe.Verdict)
    (recs : String → Dedupe.DRec) (e : String × String) : Prop :=
  ∃ a b v, Dedupe.effectiveVerdict cfg judge (recs a) (recs b) = some v ∧
    v.same = true ∧ cfg.confidenceThreshold ≤ v.confidence ∧
    e = ((recs a).id, (recs b).id)

theorem evalStep_edgeOk (cfg : Dedupe.DCfg)
    (judge : Dedupe.DRec → Dedupe.DRec → Option Dedupe.Verdict)
    (recs : String → Dedupe.DRec) (st : Dedupe.EvalSt) (c : Dedupe.Cand)
    (h : ∀ e ∈ st.mergeEdges, edgeOk cfg judge recs e) :
    ∀ e ∈ (Dedupe.evalStep cfg judge recs st c).mergeEdges, edgeOk cfg judge recs e := by
  intro e he
  unfold Dedupe.evalStep at he
  by_cases hp : Dedupe.pairKey c.nodeA c.nodeB ∈ st.processed
  · rw [if_pos hp] at he
    exact h e he
  · rw [if_neg hp] at he
    dsimp only at he
    cases hv : Dedupe.effectiveVerdict cfg judge (recs c.nodeA) (recs c.nodeB) with
    | none =>
        rw [hv] at he
        dsimp only at he
        exact h e he
    | some v =>
        rw [hv] at he
        dsimp only at he
        by_cases hg : ¬ v.same = true ∨ v.confidence < cfg.confidenceThreshold
        · rw [if_pos hg] at he
          exact h e he
        · rw [if_neg hg] at he
          by_cases hx : (recs c.nodeA).group ≠ (recs c.nodeB).group ∧
              ¬ cfg.allowCrossTypeMerge = true
          · rw [if_pos hx] at he
            exact h e he
          · rw [if_neg hx] at he
            dsimp only at he
            rcases List.mem_append.1 he with he1 | he1
            · exact h e he1
            · have he2 : e = ((recs c.nodeA).id, (recs c.nodeB).id) := by
                simpa using he1
              push_neg at hg
              exact ⟨c.nodeA, c.nodeB, v, hv, hg.1, hg.2, he2⟩

/-- Claim C1: verdict gating. First, starting from any state whose merge
edges are each justified by a passing verdict (in particular the empty
initial state, and any checkpoint state reloaded from such a run), every
merge edge after running the evaluation loop is justified by a
successfully parsed verdict with same true and confidence at or above
the configured threshold. Second, for an evaluated pair whose verdict
passes the gate but whose records belong to different coarse label
groups while cross-group merging is disabled, the step appends no merge
edge and increments the cross-type-suggestion counter by exactly 1. -/
theorem c1_verdict_gating :
    (∀ (cfg : Dedupe.DCfg) (judge : Dedupe.DRec → Dedupe.DRec → Option Dedupe.Verdict)
        (recs : String → Dedupe.DRec) (st : Dedupe.EvalSt)
        (candidates : List Dedupe.Cand),
        (∀ e ∈ st.mergeEdges, edgeOk cfg judge recs e) →
        ∀ e ∈ (Dedupe.runEval cfg judge recs st candidates).mergeEdges,
          edgeOk cfg judge recs e) ∧
    (∀ (cfg : Dedupe.DCfg) (judge : Dedupe.DRec → Dedupe.DRec → Option Dedupe.Verdict)
        (recs : String → Dedupe.DRec) (st : Dedupe.EvalSt) (c : Dedupe.Cand)
        (v : Dedupe.Verdict),
        Dedupe.pairKey c.nodeA c.nodeB ∉ st.processed →
        Dedupe.effectiveVerdict cfg judge (recs c.nodeA) (recs c.nodeB) = some v →
        v.same = true → cfg.confidenceThreshold ≤ v.confidence →
        (recs c.nodeA).group ≠ (recs c.nodeB).group →
        cfg.allowCrossTypeMerge = false →
        (Dedupe.evalStep cfg judge recs st c).mergeEdges = st.mergeEdges ∧
        (Dedupe.evalStep cfg judge recs st c).crossTypeSuggestions =
          st.crossTypeSuggestions + 1) := by
  constructor
  · intro cfg judge recs st candidates h
    induction candidates generalizing st with
    | nil => exact h
    | cons c rest ih =>
        exact ih _ (evalStep_edgeOk cfg judge recs st c h)
  · intro cfg judge recs st c v hp hv hsame hconf hgroup hallow
    unfold Dedupe.evalStep
    rw [if_neg hp]
    dsimp only
    rw [hv]
    dsimp only
    have hg : ¬ (¬ v.same = true ∨ v.confidence < cfg.confidenceThreshold) := by
      push_neg
      exact ⟨hsame, hconf⟩
    rw [if_neg hg]
    have hx : (recs c.nodeA).group ≠ (recs c.nodeB).group ∧
        ¬ cfg.allowCrossTypeMerge = true := by
      exact ⟨hgroup, by rw [hallow]; exact Bool.false_ne_true⟩
    rw [if_pos hx]
    exact ⟨rfl, rfl⟩

/-- Claim C1 witness: a concrete cross-group pair with a passing verdict
is counted as a suggestion and appends no merge edge. -/
theorem c1_verdict_gating_witness :
    (Dedupe.evalStep Dedupe.defaultCfg
        (fun _ _ => some ⟨true, 95/100, "thing", "match"⟩)
        (fun i => ⟨i, [], if i = "a" then "Entity" else "Concept", i, "", "", i, ""⟩)
        Dedupe.initEvalSt ⟨"a", "b", "cross_type_exact_name", 1⟩).mergeEdges =
      Dedupe.initEvalSt.mergeEdges ∧
    (Dedupe.evalStep Dedupe.defaultCfg
        (fun _ _ => some ⟨true, 95/100, "thing", "match"⟩)
        (fun i => ⟨i, [], if i = "a" then "Entity" else "Concept", i, "", "", i, ""⟩)
        Dedupe.initEvalSt ⟨"a", "b", "cross_type_exact_name", 1⟩).crossTypeSuggestions =
      Dedupe.initEvalSt.crossTypeSuggestions + 1 :=
  c1_verdict_gating.2 Dedupe.defaultCfg
    (fun _ _ => some ⟨true, 95/100, "thing", "match"⟩)
    (fun i => ⟨i, [], if i = "a" then "Entity" else "Concept", i, "", "", i, ""⟩)
    Dedupe.initEvalSt ⟨"a", "b", "cross_type_exact_name", 1⟩
    ⟨true, 95/100, "thing", "match"⟩
    (by decide) rfl rfl (by norm_num [Dedupe.defaultCfg]) (by decide)
    rfl


/-! Claim C2: checkpoint and resume equivalence. -/

theorem evalStep_shape (cfg : Dedupe.DCfg)
    (judge : Dedupe.DRec → Dedupe.DRec → Option Dedupe.Verdict)
    (recs : String → Dedupe.DRec) (st : Dedupe.EvalSt) (c : Dedupe.Cand) :
    (Dedupe.evalStep cfg judge recs st c = st ∧
      Dedupe.pairKey c.nodeA c.nodeB ∈ st.processed) ∨
    ((Dedupe.evalStep cfg judge recs st c).processed =
        st.processed ++ [Dedupe.pairKey c.nodeA c.nodeB] ∧
      (Dedupe.evalStep cfg judge recs st c).reviewed =
        st.reviewed ++ [⟨(recs c.nodeA).id, (recs c.nodeB).id,
          Dedupe.effectiveVerdict cfg judge (recs c.nodeA) (recs c.nodeB)⟩]) := by
  unfold Dedupe.evalStep
  by_cases hp : Dedupe.pairKey c.nodeA c.nodeB ∈ st.processed
  · rw [if_pos hp]
    exact Or.inl ⟨rfl, hp⟩
  · rw [if_neg hp]
    dsimp only
    refine Or.inr ?_
    cases hv : Dedupe.effectiveVerdict cfg judge (recs c.nodeA) (recs c.nodeB) with
    | none => exact ⟨rfl, rfl⟩
    | some v =>
        dsimp only
        split
        · exact ⟨rfl, rfl⟩
        · split
          · exact ⟨rfl, rfl⟩
          · exact ⟨rfl, rfl⟩

theorem evalStep_inv (cfg : Dedupe.DCfg)
    (judge : Dedupe.DRec → Dedupe.DRec → Option Dedupe.Verdict)
    (recs : String → Dedupe.DRec) (hrecs : ∀ i, (recs i).id = i)
    (st : Dedupe.EvalSt) (c : Dedupe.Cand)
    (h : st.processed = st.reviewed.map Dedupe.reviewedKey) :
    (Dedupe.evalStep cfg judge recs st c).processed =
      (Dedupe.evalStep cfg judge recs st c).reviewed.map Dedupe.reviewedKey := by
  rcases evalStep_shape cfg judge recs st c with ⟨heq, _⟩ | ⟨hp, hr⟩
  · rw [heq]
    exact h
  · rw [hp, hr, List.map_append, h]
    simp [Dedupe.reviewedKey, hrecs]

theorem runEval_inv (cfg : Dedupe.DCfg)
    (judge : Dedupe.DRec → Dedupe.DRec → Option Dedupe.Verdict)
    (recs : String → Dedupe.DRec) (hrecs : ∀ i, (recs i).id = i)
    (st : Dedupe.EvalSt) (l : List Dedupe.Cand)
    (h : st.processed = st.reviewed.map Dedupe.reviewedKey) :
    (Dedupe.runEval cfg judge recs st l).processed =
      (Dedupe.runEval cfg judge recs st l).reviewed.map Dedupe.reviewedKey := by
  induction l generalizing st with
  | nil => exact h
  | cons c rest ih => exact ih _ (evalStep_inv cfg judge recs hrecs st c h)

theorem evalStep_processed_mono (cfg : Dedupe.DCfg)
    (judge : Dedupe.DRec → Dedupe.DRec → Option Dedupe.Verdict)
    (recs : String → Dedupe.DRec) (st : Dedupe.EvalSt) (c : Dedupe.Cand)
    (x : String × String) (h : x ∈ st.processed) :
    x ∈ (Dedupe.evalStep cfg judge recs st c).processed := by
  rcases evalStep_shape cfg judge recs st c with ⟨heq, _⟩ | ⟨hp, _⟩
  · rw [heq]; exact h
  · rw [hp]; exact List.mem_append_left _ h

theorem runEval_processed_mono (cfg : Dedupe.DCfg)
    (judge : Dedupe.DRec → Dedupe.DRec → Option Dedupe.Verdict)
    (recs : String → Dedupe.DRec) (st : Dedupe.EvalSt) (l : List Dedupe.Cand)
    (x : String × String) (h : x ∈ st.processed) :
    x ∈ (Dedupe.runEval cfg judge recs st l).processed := by
  induction l generalizing st with
  | nil => exact h
  | cons c rest ih => exact ih _ (evalStep_processed_mono cfg judge recs st c x h)

theorem runEval_mem_processed (cfg : Dedupe.DCfg)
    (judge : Dedupe.DRec → Dedupe.DRec → Option Dedupe.Verdict)
    (recs : String → Dedupe.DRec) (st : Dedupe.EvalSt) (l : List Dedupe.Cand)
    (c : Dedupe.Cand) (h : c ∈ l) :
    Dedupe.pairKey c.nodeA c.nodeB ∈ (Dedupe.runEval cfg judge recs st l).processed := by
  induction l generalizing st with
  | nil => simp at h
  | cons c0 rest ih =>
      rcases List.mem_cons.1 h with h1 | h1
      · subst h1
        have hstep : Dedupe.pairKey c.nodeA c.nodeB ∈
            (Dedupe.evalStep cfg judge recs st c).processed := by
          rcases evalStep_shape cfg judge recs st c with ⟨heq, hmem⟩ | ⟨hp, _⟩
          · rw [heq]; exact hmem
          · rw [hp]; exact List.mem_append_right _ (by simp)
        exact runEval_processed_mono cfg judge recs _ rest _ hstep
      · exact ih _ h1

theorem runEval_skip_all (cfg : Dedupe.DCfg)
    (judge : Dedupe.DRec → Dedupe.DRec → Option Dedupe.Verdict)
    (recs : String → Dedupe.DRec) (st : Dedupe.EvalSt) (l : List Dedupe.Cand)
    (h : ∀ c ∈ l, Dedupe.pairKey c.nodeA c.nodeB ∈ st.processed) :
    Dedupe.runEval cfg judge recs st l = st := by
  induction l with
  | nil => rfl
  | cons c rest ih =>
      have hstep : Dedupe.evalStep cfg judge recs st c = st := by
        unfold Dedupe.evalStep
        rw [if_pos (h c (List.mem_cons_self _ _))]
      show Dedupe.runEval cfg judge recs (Dedupe.evalStep cfg judge recs st c) rest = st
      rw [hstep]
      exact ih (fun c0 hc0 => h c0 (List.mem_cons_of_mem _ hc0))

theorem runEval_append (cfg : Dedupe.DCfg)
    (judge : Dedupe.DRec → Dedupe.DRec → Option Dedupe.Verdict)
    (recs : String → Dedupe.DRec) (st : Dedupe.EvalSt) (l1 l2 : List Dedupe.Cand) :
    Dedupe.runEval cfg judge recs st (l1 ++ l2) =
      Dedupe.runEval cfg judge recs (Dedupe.runEval cfg judge recs st l1) l2 :=
  List.foldl_append _ _ _ _

/-- Claim C2: a run interrupted after any number of candidates and
resumed from its checkpoint (reviewed list, merge edges and counters
reloaded; the processed-pair set reconstructed from the reviewed list)
produces exactly the same final merge map, deduplicated node list and
deduplicated relationship list as the uninterrupted run over the same
candidates and the same judge. The record map assigns each id its own
record, as the record_by_id index built by _build_candidates does. -/
theorem c2_resume_equivalence (cfg : Dedupe.DCfg)
    (judge : Dedupe.DRec → Dedupe.DRec → Option Dedupe.Verdict)
    (recs : String → Dedupe.DRec) (nodes : List Dedupe.JNode)
    (rels : List Dedupe.JRel) (cands : List Dedupe.Cand) (n : Nat)
    (hrecs : ∀ i, (recs i).id = i) :
    Dedupe.buildMergeMap
        (Dedupe.runEval cfg judge recs
          (Dedupe.resumeSt (Dedupe.runEval cfg judge recs Dedupe.initEvalSt
            (cands.take n))) cands).mergeEdges recs =
      Dedupe.buildMergeMap
        (Dedupe.runEval cfg judge recs Dedupe.initEvalSt cands).mergeEdges recs ∧
    Dedupe.mergeNodes nodes
        (Dedupe.buildMergeMap
          (Dedupe.runEval cfg judge recs
            (Dedupe.resumeSt (Dedupe.runEval cfg judge recs Dedupe.initEvalSt
              (cands.take n))) cands).mergeEdges recs) =
      Dedupe.mergeNodes nodes
        (Dedupe.buildMergeMap
          (Dedupe.runEval cfg judge recs Dedupe.initEvalSt cands).mergeEdges recs) ∧
    Dedupe.mergeRelationships rels
        (Dedupe.buildMergeMap
          (Dedupe.runEval cfg judge recs
            (Dedupe.resumeSt (Dedupe.runEval cfg judge recs Dedupe.initEvalSt
              (cands.take n))) cands).mergeEdges recs) =
      Dedupe.mergeRelationships rels
        (Dedupe.buildMergeMap
          (Dedupe.runEval cfg judge recs Dedupe.initEvalSt cands).mergeEdges recs) := by
  have hinv : (Dedupe.runEval cfg judge recs Dedupe.initEvalSt (cands.take n)).processed =
      (Dedupe.runEval cfg judge recs Dedupe.initEvalSt (cands.take n)).reviewed.map
        Dedupe.reviewedKey :=
    runEval_inv cfg judge recs hrecs _ _ rfl
  have hresume : Dedupe.resumeSt (Dedupe.runEval cfg judge recs Dedupe.initEvalSt
      (cands.take n)) = Dedupe.runEval cfg judge recs Dedupe.initEvalSt (cands.take n) := by
    unfold Dedupe.resumeSt
    rw [← hinv]
  have hmain : Dedupe.runEval cfg judge recs
      (Dedupe.resumeSt (Dedupe.runEval cfg judge recs Dedupe.initEvalSt (cands.take n)))
      cands = Dedupe.runEval cfg judge recs Dedupe.initEvalSt cands := by
    rw [hresume]
    generalize hmid : Dedupe.runEval cfg judge recs Dedupe.initEvalSt (cands.take n) = mid
    conv_lhs => rw [← List.take_append_drop n cands]
    rw [runEval_append]
    rw [runEval_skip_all cfg judge recs mid (cands.take n)
      (fun c hc => hmid ▸ runEval_mem_processed cfg judge recs _ _ c hc)]
    conv_rhs => rw [← List.take_append_drop n cands]
    rw [runEval_append, hmid]
  rw [hmain]
  exact ⟨rfl, rfl, rfl⟩

/-- Claim C2 witness: the resume equality evaluated on a concrete
two-candidate run interrupted after the first candidate. -/
theorem c2_resume_equivalence_witness :
    Dedupe.buildMergeMap
        (Dedupe.runEval Dedupe.defaultCfg (fun _ _ => none)
          (fun i => ⟨i, [], "Unknown", i, "", "", i, ""⟩)
          (Dedupe.resumeSt (Dedupe.runEval Dedupe.defaultCfg (fun _ _ => none)
            (fun i => ⟨i, [], "Unknown", i, "", "", i, ""⟩) Dedupe.initEvalSt
            ([⟨"a", "b", "x", 1⟩, ⟨"b", "c", "x", 1⟩].take 1)))
          [⟨"a", "b", "x", 1⟩, ⟨"b", "c", "x", 1⟩]).mergeEdges
        (fun i => ⟨i, [], "Unknown", i, "", "", i, ""⟩) =
      Dedupe.buildMergeMap
        (Dedupe.runEval Dedupe.defaultCfg (fun _ _ => none)
          (fun i => ⟨i, [], "Unknown", i, "", "", i, ""⟩) Dedupe.initEvalSt
          [⟨"a", "b", "x", 1⟩, ⟨"b", "c", "x", 1⟩]).mergeEdges
        (fun i => ⟨i, [], "Unknown", i, "", "", i, ""⟩) :=
  (c2_resume_equivalence Dedupe.defaultCfg (fun _ _ => none)
    (fun i => ⟨i, [], "Unknown", i, "", "", i, ""⟩) [] []
    [⟨"a", "b", "x", 1⟩, ⟨"b", "c", "x", 1⟩] 1 (fun _ => rfl)).1


/-! Claim C6 part 1: a reconcile pass that performs no merge leaves the
store unchanged. -/

theorem reconcileCandidate_cases (primary : String)
    (st : Builder.CGB × List (String × String)) (c : String) :
    Builder.reconcileCandidate primary st c = st ∨
    (Builder.reconcileCandidate primary st c).2 = st.2 ++ [(c, primary)] := by
  obtain ⟨b, remap⟩ := st
  unfold Builder.reconcileCandidate
  dsimp only
  by_cases h1 : c = primary
  · rw [if_pos h1]
    exact Or.inl rfl
  · rw [if_neg h1]
    cases aget b.nodes c with
    | none => exact Or.inl rfl
    | some cn =>
        cases aget b.nodes primary with
        | none => exact Or.inl rfl
        | some pn =>
            dsimp only
            split
            · exact Or.inr rfl
            · exact Or.inl rfl

theorem reconcileInner_cases (primary : String) (group : List String)
    (st : Builder.CGB × List (String × String)) :
    st.2.length ≤ (group.foldl (Builder.reconcileCandidate primary) st).2.length ∧
    ((group.foldl (Builder.reconcileCandidate primary) st).2.length = st.2.length →
      group.foldl (Builder.reconcileCandidate primary) st = st) := by
  induction group generalizing st with
  | nil => exact ⟨Nat.le_refl _, fun _ => rfl⟩
  | cons c rest ih =>
      rw [List.foldl_cons]
      rcases reconcileCandidate_cases primary st c with h | h
      · rw [h]
        exact ih st
      · have hlen : (Builder.reconcileCandidate primary st c).2.length = st.2.length + 1 := by
          rw [h, List.length_append, List.length_singleton]
        obtain ⟨hmono, _⟩ := ih (Builder.reconcileCandidate primary st c)
        constructor
        · omega
        · intro hfin
          omega

theorem reconcileGroupStep_cases (st : Builder.CGB × List (String × String))
    (keyed : (String × String) × List String) :
    st.2.length ≤ (Builder.reconcileGroupStep st keyed).2.length ∧
    ((Builder.reconcileGroupStep st keyed).2.length = st.2.length →
      Builder.reconcileGroupStep st keyed = st) := by
  unfold Builder.reconcileGroupStep
  split
  · exact ⟨Nat.le_refl _, fun _ => rfl⟩
  · exact reconcileInner_cases _ _ st

theorem reconcileFold_cases (groups : List ((String × String) × List String))
    (st : Builder.CGB × List (String × String)) :
    st.2.length ≤ (groups.foldl Builder.reconcileGroupStep st).2.length ∧
    ((groups.foldl Builder.reconcileGroupStep st).2.length = st.2.length →
      groups.foldl Builder.reconcileGroupStep st = st) := by
  induction groups generalizing st with
  | nil => exact ⟨Nat.le_refl _, fun _ => rfl⟩
  | cons g rest ih =>
      rw [List.foldl_cons]
      obtain ⟨h1, h2⟩ := reconcileGroupStep_cases st g
      obtain ⟨h3, h4⟩ := ih (Builder.reconcileGroupStep st g)
      constructor
      · omega
      · intro hfin
        have hmid : (Builder.reconcileGroupStep st g).2.length = st.2.length := by omega
        rw [h2 hmid] at hfin ⊢
        exact (ih st).2 hfin

theorem reconcile_no_merge_unchanged (b : Builder.CGB)
    (h : (Builder.finalNameBasedReconcile b).2 = []) :
    (Builder.finalNameBasedReconcile b).1 = b := by
  unfold Builder.finalNameBasedReconcile at h ⊢
  have h0 : ((Builder.reconcileGroups b).foldl Builder.reconcileGroupStep (b, [])).2.length =
      (Prod.snd (α := Builder.CGB) (b, ([] : List (String × String)))).length := by
    rw [h]
  have := (reconcileFold_cases (Builder.reconcileGroups b) (b, [])).2 h0
  rw [this]


/-! Claim C6 part 2: _merge_nodes is idempotent for merge maps whose
targets are non-empty ids that are not themselves remapped (as the
union-find merge map construction guarantees). -/

/-- Invariant of the _merge_nodes accumulator: every stored record is
keyed by its own id, the key is non-empty and not remapped, and keys are
distinct. -/
def mergeAccInv (M : List (String × String))
    (acc : List (String × Dedupe.JNode)) : Prop :=
  (∀ p ∈ acc, p.2.id = p.1 ∧ p.1 ≠ "" ∧ aget M p.1 = none) ∧
  (acc.map Prod.fst).Nodup

theorem mergeNodesStep_inv (M : List (String × String))
    (hM : ∀ a c, aget M a = some c → c ≠ "" ∧ aget M c = none)
    (acc : List (String × Dedupe.JNode)) (node : Dedupe.JNode)
    (h : mergeAccInv M acc) : mergeAccInv M (Dedupe.mergeNodesStep M acc node) := by
  unfold Dedupe.mergeNodesStep
  by_cases hid : node.id = ""
  · rw [if_pos hid]; exact h
  · rw [if_neg hid]
    have hkey : (aget M node.id).getD node.id ≠ "" ∧
        aget M ((aget M node.id).getD node.id) = none := by
      cases hMg : aget M node.id with
      | none =>
          simp only [hMg, Option.getD_none]
          exact ⟨hid, trivial⟩
      | some c => simp only [hMg, Option.getD_some]; exact hM node.id c hMg
    cases hacc : aget acc ((aget M node.id).getD node.id) with
    | none =>
        constructor
        · intro p hp
          rcases List.mem_append.1 hp with hp | hp
          · exact h.1 p hp
          · rw [List.mem_singleton] at hp
            subst hp
            exact ⟨rfl, hkey.1, hkey.2⟩
        · rw [List.map_append]
          rw [List.nodup_append]
          refine ⟨h.2, List.nodup_singleton _, ?_⟩
          intro a ha hb
          rw [List.map_singleton, List.mem_singleton] at hb
          subst hb
          exact not_mem_keys_of_aget_eq_none acc _ hacc ha
    | some existing =>
        have hmem := aget_mem acc _ existing hacc
        have hprops := h.1 _ hmem
        constructor
        · intro p hp
          rcases mem_aset acc _ _ p hp with hp | hp
          · subst hp
            exact ⟨hprops.1, hkey.1, hkey.2⟩
          · exact h.1 p hp
        · rw [keys_aset]
          rw [if_pos (List.mem_map.2 ⟨_, hmem, rfl⟩)]
          exact h.2

theorem mergeNodesFold_inv (M : List (String × String))
    (hM : ∀ a c, aget M a = some c → c ≠ "" ∧ aget M c = none)
    (nodes : List Dedupe.JNode) (acc : List (String × Dedupe.JNode))
    (h : mergeAccInv M acc) :
    mergeAccInv M (nodes.foldl (Dedupe.mergeNodesStep M) acc) := by
  induction nodes generalizing acc with
  | nil => exact h
  | cons n rest ih =>
      rw [List.foldl_cons]
      exact ih _ (mergeNodesStep_inv M hM acc n h)

theorem mergeNodesFold_fresh (M : List (String × String))
    (l : List Dedupe.JNode) (acc : List (String × Dedupe.JNode))
    (hl : ∀ r ∈ l, r.id ≠ "" ∧ aget M r.id = none ∧ aget acc r.id = none)
    (hnodup : (l.map Dedupe.JNode.id).Nodup) :
    l.foldl (Dedupe.mergeNodesStep M) acc = acc ++ l.map (fun r => (r.id, r)) := by
  induction l generalizing acc with
  | nil => simp
  | cons r rest ih =>
      obtain ⟨hrid, hrm, hracc⟩ := hl r (List.mem_cons_self r rest)
      rw [List.foldl_cons]
      have hstep : Dedupe.mergeNodesStep M acc r = acc ++ [(r.id, r)] := by
        unfold Dedupe.mergeNodesStep
        rw [if_neg hrid, hrm]
        simp only [Option.getD_none]
        rw [hracc]
      rw [hstep]
      rw [ih (acc ++ [(r.id, r)]) ?hl2 (List.nodup_cons.1 hnodup).2]
      · simp [List.map_cons, List.append_assoc]
      case hl2 =>
        intro s hs
        obtain ⟨h1, h2, h3⟩ := hl s (List.mem_cons_of_mem _ hs)
        refine ⟨h1, h2, ?_⟩
        rw [aget_append, h3]
        have hne : r.id ≠ s.id := by
          intro heq
          apply (List.nodup_cons.1 hnodup).1
          rw [heq]
          exact List.mem_map_of_mem _ hs
        simp [aget_cons, aget_nil, hne]

theorem charListLt_trans : ∀ (x y z : List Char), charListLt x y = true →
    charListLt y z = true → charListLt x z = true := by
  intro x
  induction x with
  | nil =>
      intro y z h1 h2
      cases z with
      | nil =>
          cases y with
          | nil => exact absurd h1 (by simp [charListLt])
          | cons b bs => exact absurd h2 (by simp [charListLt])
      | cons c cs => simp [charListLt]
  | cons a as ih =>
      intro y z h1 h2
      cases y with
      | nil => exact absurd h1 (by simp [charListLt])
      | cons b bs =>
          cases z with
          | nil => exact absurd h2 (by simp [charListLt])
          | cons c cs =>
              simp only [charListLt] at h1 h2 ⊢
              by_cases hab : a < b
              · by_cases hbc : b < c
                · rw [if_pos (lt_trans hab hbc)]
                · rw [if_neg hbc] at h2
                  by_cases hcb : c < b
                  · rw [if_pos hcb] at h2
                    exact absurd h2 (by simp)
                  · have hbceq : b = c := le_antisymm (not_lt.1 hcb) (not_lt.1 hbc)
                    rw [if_pos (show a < c by rw [← hbceq]; exact hab)]
              · rw [if_neg hab] at h1
                by_cases hba : b < a
                · rw [if_pos hba] at h1
                  exact absurd h1 (by simp)
                · rw [if_neg hba] at h1
                  have habeq : a = b := le_antisymm (not_lt.1 hba) (not_lt.1 hab)
                  by_cases hbc : b < c
                  · rw [if_pos (show a < c by rw [habeq]; exact hbc)]
                  · rw [if_neg hbc] at h2
                    by_cases hcb : c < b
                    · rw [if_pos hcb] at h2
                      exact absurd h2 (by simp)
                    · rw [if_neg hcb] at h2
                      have hbceq : b = c := le_antisymm (not_lt.1 hcb) (not_lt.1 hbc)
                      have hac : ¬ a < c := by rw [habeq, hbceq]; exact lt_irrefl c
                      have hca : ¬ c < a := by rw [habeq, hbceq]; exact lt_irrefl c
                      rw [if_neg hac, if_neg hca]
                      exact ih bs cs h1 h2

theorem charListLt_asymm : ∀ (x y : List Char), charListLt x y = true →
    charListLt y x = false := by
  intro x
  induction x with
  | nil =>
      intro y h
      cases y with
      | nil => exact absurd h (by simp [charListLt])
      | cons c cs => simp [charListLt]
  | cons a as ih =>
      intro y h
      cases y with
      | nil => exact absurd h (by simp [charListLt])
      | cons b bs =>
          simp only [charListLt] at h ⊢
          by_cases hab : a < b
          · rw [if_neg (lt_asymm hab), if_pos hab]
          · rw [if_neg hab] at h
            by_cases hba : b < a
            · rw [if_pos hba] at h
              exact absurd h (by simp)
            · rw [if_neg hba] at h
              rw [if_neg hba, if_neg hab]
              exact ih bs h

theorem charListLt_conn : ∀ (x y : List Char), charListLt x y = false →
    charListLt y x = false → x = y := by
  intro x
  induction x with
  | nil =>
      intro y h1 h2
      cases y with
      | nil => rfl
      | cons c cs => exact absurd h1 (by simp [charListLt])
  | cons a as ih =>
      intro y h1 h2
      cases y with
      | nil => exact absurd h2 (by simp [charListLt])
      | cons b bs =>
          simp only [charListLt] at h1 h2
          by_cases hab : a < b
          · rw [if_pos hab] at h1
            exact absurd h1 (by simp)
          · rw [if_neg hab] at h1
            by_cases hba : b < a
            · rw [if_pos hba] at h2
              exact absurd h2 (by simp)
            · rw [if_neg hba] at h1
              rw [if_neg hab, if_neg hba] at h2
              have habeq : a = b := le_antisymm (not_lt.1 hba) (not_lt.1 hab)
              rw [habeq, ih bs h1 h2]

theorem strLe_trans (a b c : String) (h1 : strLe a b = true)
    (h2 : strLe b c = true) : strLe a c = true := by
  unfold strLe at h1 h2 ⊢
  rw [Bool.not_eq_true'] at h1 h2 ⊢
  by_contra h
  rw [Bool.not_eq_false] at h
  cases hbc : charListLt b.toList c.toList with
  | true =>
      have := charListLt_trans _ _ _ hbc h
      rw [h1] at this
      exact absurd this (by simp)
  | false =>
      have heq := charListLt_conn _ _ hbc h2
      rw [← heq] at h
      rw [h1] at h
      exact absurd h (by simp)

theorem strLe_total (a b : String) : (strLe a b || strLe b a) = true := by
  unfold strLe
  cases h : charListLt b.toList a.toList with
  | false => simp
  | true =>
      rw [charListLt_asymm _ _ h]
      simp

theorem mergeNodes_fresh_ids (M : List (String × String))
    (hM : ∀ a c, aget M a = some c → c ≠ "" ∧ aget M c = none)
    (nodes : List Dedupe.JNode) :
    (∀ r ∈ Dedupe.mergeNodes nodes M, r.id ≠ "" ∧ aget M r.id = none) ∧
    ((Dedupe.mergeNodes nodes M).map Dedupe.JNode.id).Nodup := by
  have hinv := mergeNodesFold_inv M hM nodes [] ⟨by simp, by simp⟩
  constructor
  · intro r hr
    rw [Dedupe.mergeNodes, mem_pySort, List.mem_map] at hr
    obtain ⟨p, hp, hpr⟩ := hr
    obtain ⟨_, h2, h3⟩ := hinv.1 p hp
    subst hpr
    rw [(hinv.1 p hp).1]
    exact ⟨h2, h3⟩
  · have hmapeq :
        ((nodes.foldl (Dedupe.mergeNodesStep M) []).map (fun p => p.2)).map
          Dedupe.JNode.id =
        (nodes.foldl (Dedupe.mergeNodesStep M) []).map Prod.fst := by
      rw [List.map_map]
      exact List.map_congr_left (fun p hp => (hinv.1 p hp).1)
    have hperm := (pySort_perm (fun (a b : Dedupe.JNode) => strLe a.id b.id)
      ((nodes.foldl (Dedupe.mergeNodesStep M) []).map (fun p => p.2))).map
      Dedupe.JNode.id
    rw [Dedupe.mergeNodes]
    rw [hperm.nodup_iff, hmapeq]
    exact hinv.2

theorem mergeNodes_idem (M : List (String × String))
    (hM : ∀ a c, aget M a = some c → c ≠ "" ∧ aget M c = none)
    (nodes : List Dedupe.JNode) :
    Dedupe.mergeNodes (Dedupe.mergeNodes nodes M) M = Dedupe.mergeNodes nodes M := by
  obtain ⟨hres, hnodup⟩ := mergeNodes_fresh_ids M hM nodes
  have hfold := mergeNodesFold_fresh M (Dedupe.mergeNodes nodes M) []
    (fun r hr => ⟨(hres r hr).1, (hres r hr).2, aget_nil r.id⟩) hnodup
  have htrans : ∀ a b c : Dedupe.JNode,
      (fun (x y : Dedupe.JNode) => strLe x.id y.id) a b = true →
      (fun (x y : Dedupe.JNode) => strLe x.id y.id) b c = true →
      (fun (x y : Dedupe.JNode) => strLe x.id y.id) a c = true := by
    intro a b c h1 h2
    exact strLe_trans a.id b.id c.id h1 h2
  have htotal : ∀ a b : Dedupe.JNode,
      ((fun (x y : Dedupe.JNode) => strLe x.id y.id) a b ||
       (fun (x y : Dedupe.JNode) => strLe x.id y.id) b a) = true := by
    intro a b
    exact strLe_total a.id b.id
  conv_lhs => rw [Dedupe.mergeNodes, hfold]
  rw [List.nil_append, List.map_map]
  have hid : ((Dedupe.mergeNodes nodes M).map
      ((fun (p : String × Dedupe.JNode) => p.2) ∘ fun r => (r.id, r))) =
      Dedupe.mergeNodes nodes M := by
    rw [List.map_congr_left (fun r _ => rfl : ∀ r ∈ Dedupe.mergeNodes nodes M,
      ((fun (p : String × Dedupe.JNode) => p.2) ∘ fun s => (s.id, s)) r =
       (fun r => r) r)]
    exact List.map_id _
  rw [hid]
  refine pySort_of_sorted _ _ ?_
  rw [Dedupe.mergeNodes]
  exact pySort_sorted _ htrans htotal _

/-! Claim C6: counterexample and amended statement. -/

/-- Three entity nodes from a single markdown batch whose names interact
with the fingerprint fallback: merging changes a display name so that its
fingerprint falls back to the node id, enabling a further merge on the
second reconcile pass. -/
def bC6 : Builder.CGB :=
  Builder.ingestBatch {}
    [⟨"zz", ["Entity"], [("name", Value.vStr "Alpha Beta")]⟩,
     ⟨"the_alpha_beta", ["Entity"], [("name", Value.vStr "The System Systems")]⟩,
     ⟨"c_node", ["Entity"], [("name", Value.vStr "The Zz")]⟩]
    [] "f.md" "markdown"

/-- Counterexample to C6: the final name-based reconcile is not
idempotent. On bC6 the first pass performs one merge; running the pass
again on its own output performs a second merge and changes the store. -/
theorem c6_counterexample :
    (Builder.finalNameBasedReconcile bC6).1.stats.finalNameMerges = 1 ∧
    (Builder.finalNameBasedReconcile
      (Builder.finalNameBasedReconcile bC6).1).1.stats.finalNameMerges = 2 ∧
    (Builder.finalNameBasedReconcile
      (Builder.finalNameBasedReconcile bC6).1).1 ≠
      (Builder.finalNameBasedReconcile bC6).1 := by
  refine ⟨by decide, by decide, by decide⟩

/-- C6 (amended): a final name-based reconcile pass that reports no
merges (empty remap) leaves the builder unchanged, but the pass is not
idempotent in general (see the counterexample); the _merge_nodes step is
idempotent: for every merge map whose targets are non-empty ids that are
not themselves remapped (as union-find root maps are), applying
_merge_nodes a second time to its own output returns it unchanged. -/
theorem c6_second_pass (b : Builder.CGB) (nodes : List Dedupe.JNode)
    (M : List (String × String))
    (hM : ∀ a c, aget M a = some c → c ≠ "" ∧ aget M c = none) :
    ((Builder.finalNameBasedReconcile b).2 = [] →
      (Builder.finalNameBasedReconcile b).1 = b) ∧
    Dedupe.mergeNodes (Dedupe.mergeNodes nodes M) M = Dedupe.mergeNodes nodes M :=
  ⟨reconcile_no_merge_unchanged b, mergeNodes_idem M hM nodes⟩

/-- Witness for C6 at a concrete builder and a concrete two-node list
with merge map [(b, a)]. -/
theorem c6_second_pass_witness :
    ((Builder.finalNameBasedReconcile {}).2 = [] →
      (Builder.finalNameBasedReconcile {}).1 = ({} : Builder.CGB)) ∧
    Dedupe.mergeNodes
      (Dedupe.mergeNodes [⟨"b", ["L"], []⟩, ⟨"a", [], []⟩] [("b", "a")])
      [("b", "a")] =
      Dedupe.mergeNodes [⟨"b", ["L"], []⟩, ⟨"a", [], []⟩] [("b", "a")] :=
  c6_second_pass {} [⟨"b", ["L"], []⟩, ⟨"a", [], []⟩] [("b", "a")]
    (by
      intro a c h
      rw [aget_cons] at h
      by_cases hba : "b" = a
      · rw [if_pos hba] at h
        have hc : "a" = c := Option.some.inj h
        subst hc
        exact ⟨by decide, by decide⟩
      · rw [if_neg hba, aget_nil] at h
        exact absurd h (by simp))


/-! Claim C7: emission lemmas for candidate generation. -/

theorem bucketsOf_fold_inv (cfg : Dedupe.DCfg) (P : Dedupe.DRec → Prop)
    (l : List Dedupe.DRec) (hP : ∀ r ∈ l, P r)
    (acc : List ((String × String × String) × List Dedupe.DRec))
    (hacc : ∀ k b, aget acc k = some b → ∀ r ∈ b, P r ∧ Dedupe.bucketKeyOf cfg r = k) :
    ∀ k b, aget (l.foldl (fun acc record =>
        aappend acc (Dedupe.bucketKeyOf cfg record) record) acc) k = some b →
      ∀ r ∈ b, P r ∧ Dedupe.bucketKeyOf cfg r = k := by
  induction l generalizing acc with
  | nil => exact hacc
  | cons r0 rest ih =>
      rw [List.foldl_cons]
      refine ih (fun r hr => hP r (List.mem_cons_of_mem _ hr)) _ ?_
      intro k b hk s hs
      by_cases hkey : k = Dedupe.bucketKeyOf cfg r0
      · subst hkey
        rw [aget_aappend_self] at hk
        have hb := Option.some.inj hk
        subst hb
        rcases List.mem_append.1 hs with hs | hs
        · cases hold : aget acc (Dedupe.bucketKeyOf cfg r0) with
          | none => rw [hold] at hs; simp at hs
          | some oldb =>
              rw [hold] at hs
              exact hacc _ _ hold s hs
        · rw [List.mem_singleton] at hs
          subst hs
          exact ⟨hP s (List.mem_cons_self _ _), rfl⟩
      · rw [aget_aappend_ne _ _ _ _ hkey] at hk
        exact hacc _ _ hk s hs

theorem bucketsOf_mem (cfg : Dedupe.DCfg) (records : List Dedupe.DRec)
    (k : String × String × String) (b : List Dedupe.DRec)
    (hk : aget (Dedupe.bucketsOf cfg records) k = some b) :
    ∀ r ∈ b, r ∈ records ∧ Dedupe.bucketKeyOf cfg r = k := by
  refine bucketsOf_fold_inv cfg (fun r => r ∈ records) records (fun r hr => hr) [] ?_ k b hk
  intro k b hk
  rw [aget_nil] at hk
  exact absurd hk (by simp)

theorem bucketPairStep_cands (cfg : Dedupe.DCfg) (sim : String → String → ℚ)
    (a b : Dedupe.DRec) (st : Dedupe.GenSt) (c : Dedupe.Cand)
    (hc : c ∈ (Dedupe.bucketPairStep cfg sim a b st).candidates) :
    c ∈ st.candidates ∨
      (c.nodeA = a.id ∧ c.nodeB = b.id ∧ c.reason = "same_group_bucket") := by
  unfold Dedupe.bucketPairStep at hc
  split at hc
  · exact Or.inl hc
  split at hc
  · exact Or.inl hc
  split at hc
  · exact Or.inl hc
  split at hc
  · exact Or.inl hc
  split at hc
  · exact Or.inl hc
  split at hc
  · exact Or.inl hc
  rcases List.mem_append.1 hc with h | h
  · exact Or.inl h
  · rw [List.mem_singleton] at h
    subst h
    exact Or.inr ⟨rfl, rfl, rfl⟩

theorem bucketInner_cands (cfg : Dedupe.DCfg) (sim : String → String → ℚ)
    (a : Dedupe.DRec) (l : List Dedupe.DRec) :
    ∀ (st : Dedupe.GenSt) (c : Dedupe.Cand),
      c ∈ (Dedupe.bucketInner cfg sim a l st).candidates →
      c ∈ st.candidates ∨ ∃ b, b ∈ l ∧ c.nodeA = a.id ∧ c.nodeB = b.id ∧
        c.reason = "same_group_bucket" := by
  induction l with
  | nil =>
      intro st c hc
      exact Or.inl hc
  | cons b rest ih =>
      intro st c hc
      simp only [Dedupe.bucketInner] at hc
      split at hc
      · exact Or.inl hc
      · rcases ih _ c hc with h | ⟨b2, hb2, h1, h2, h3⟩
        · rcases bucketPairStep_cands cfg sim a b st c h with h | h
          · exact Or.inl h
          · exact Or.inr ⟨b, List.mem_cons_self _ _, h⟩
        · exact Or.inr ⟨b2, List.mem_cons_of_mem _ hb2, h1, h2, h3⟩

theorem bucketOuter_cands (cfg : Dedupe.DCfg) (sim : String → String → ℚ)
    (l : List Dedupe.DRec) :
    ∀ (st : Dedupe.GenSt) (c : Dedupe.Cand),
      c ∈ (Dedupe.bucketOuter cfg sim l st).candidates →
      c ∈ st.candidates ∨ ∃ a b, a ∈ l ∧ b ∈ l ∧ c.nodeA = a.id ∧
        c.nodeB = b.id ∧ c.reason = "same_group_bucket" := by
  induction l with
  | nil =>
      intro st c hc
      exact Or.inl hc
  | cons a rest ih =>
      intro st c hc
      simp only [Dedupe.bucketOuter] at hc
      split at hc
      · rcases bucketInner_cands cfg sim a rest st c hc with h | ⟨b, hb, h1, h2, h3⟩
        · exact Or.inl h
        · exact Or.inr ⟨a, b, List.mem_cons_self _ _, List.mem_cons_of_mem _ hb, h1, h2, h3⟩
      · rcases ih _ c hc with h | ⟨a2, b2, ha2, hb2, h1, h2, h3⟩
        · rcases bucketInner_cands cfg sim a rest st c h with h | ⟨b, hb, h1, h2, h3⟩
          · exact Or.inl h
          · exact Or.inr ⟨a, b, List.mem_cons_self _ _, List.mem_cons_of_mem _ hb, h1, h2, h3⟩
        · exact Or.inr ⟨a2, b2, List.mem_cons_of_mem _ ha2, List.mem_cons_of_mem _ hb2, h1, h2, h3⟩

theorem bucketPass_cands (cfg : Dedupe.DCfg) (sim : String → String → ℚ)
    (buckets : List ((String × String × String) × List Dedupe.DRec))
    (keys : List (String × String × String)) :
    ∀ (st : Dedupe.GenSt) (c : Dedupe.Cand),
      c ∈ (Dedupe.bucketPass cfg sim buckets keys st).candidates →
      c ∈ st.candidates ∨ ∃ k bucket a b, aget buckets k = some bucket ∧
        bucket.length ≤ cfg.maxBucketSize ∧ a ∈ bucket ∧ b ∈ bucket ∧
        c.nodeA = a.id ∧ c.nodeB = b.id ∧ c.reason = "same_group_bucket" := by
  induction keys with
  | nil =>
      intro st c hc
      exact Or.inl hc
  | cons key rest ih =>
      intro st c hc
      simp only [Dedupe.bucketPass] at hc
      split at hc
      · exact ih st c hc
      · rename_i hle
        rw [Nat.not_lt] at hle
        have hout : ∀ (c : Dedupe.Cand),
            c ∈ (Dedupe.bucketOuter cfg sim
              (pySort Dedupe.recLe ((aget buckets key).getD [])) st).candidates →
            c ∈ st.candidates ∨ ∃ k bucket a b, aget buckets k = some bucket ∧
              bucket.length ≤ cfg.maxBucketSize ∧ a ∈ bucket ∧ b ∈ bucket ∧
              c.nodeA = a.id ∧ c.nodeB = b.id ∧ c.reason = "same_group_bucket" := by
          intro c hc
          rcases bucketOuter_cands cfg sim _ st c hc with h | ⟨a, b, ha, hb, h1, h2, h3⟩
          · exact Or.inl h
          · cases hag : aget buckets key with
            | none =>
                rw [hag] at ha
                rw [mem_pySort] at ha
                simp at ha
            | some bucket =>
                rw [hag] at ha hb hle
                rw [mem_pySort] at ha hb
                exact Or.inr ⟨key, bucket, a, b, hag, hle, ha, hb, h1, h2, h3⟩
        split at hc
        · exact hout c hc
        · rcases ih _ c hc with h | h
          · exact hout c h
          · exact Or.inr h

theorem crossPairStep_cands (a b : Dedupe.DRec) (st : Dedupe.GenSt)
    (c : Dedupe.Cand) (hc : c ∈ (Dedupe.crossPairStep a b st).candidates) :
    c ∈ st.candidates ∨ c.reason = "cross_type_exact_name" := by
  unfold Dedupe.crossPairStep at hc
  split at hc
  · exact Or.inl hc
  · rcases List.mem_append.1 hc with h | h
    · exact Or.inl h
    · rw [List.mem_singleton] at h
      subst h
      exact Or.inr rfl

theorem crossInner_cands (cfg : Dedupe.DCfg) (a : Dedupe.DRec)
    (l : List Dedupe.DRec) :
    ∀ (st : Dedupe.GenSt) (c : Dedupe.Cand),
      c ∈ (Dedupe.crossInner cfg a l st).candidates →
      c ∈ st.candidates ∨ c.reason = "cross_type_exact_name" := by
  induction l with
  | nil =>
      intro st c hc
      exact Or.inl hc
  | cons b rest ih =>
      intro st c hc
      simp only [Dedupe.crossInner] at hc
      split at hc
      · exact Or.inl hc
      · rcases ih _ c hc with h | h
        · exact crossPairStep_cands a b st c h
        · exact Or.inr h

theorem crossOuter_cands (cfg : Dedupe.DCfg) (l : List Dedupe.DRec) :
    ∀ (st : Dedupe.GenSt) (c : Dedupe.Cand),
      c ∈ (Dedupe.crossOuter cfg l st).candidates →
      c ∈ st.candidates ∨ c.reason = "cross_type_exact_name" := by
  induction l with
  | nil =>
      intro st c hc
      exact Or.inl hc
  | cons a rest ih =>
      intro st c hc
      simp only [Dedupe.crossOuter] at hc
      split at hc
      · exact crossInner_cands cfg a rest st c hc
      · rcases ih _ c hc with h | h
        · exact crossInner_cands cfg a rest st c h
        · exact Or.inr h

theorem crossPass_cands (cfg : Dedupe.DCfg)
    (nameMap : List (String × List Dedupe.DRec)) (names : List String) :
    ∀ (st : Dedupe.GenSt) (c : Dedupe.Cand),
      c ∈ (Dedupe.crossPass cfg nameMap names st).candidates →
      c ∈ st.candidates ∨ c.reason = "cross_type_exact_name" := by
  induction names with
  | nil =>
      intro st c hc
      exact Or.inl hc
  | cons nm rest ih =>
      intro st c hc
      simp only [Dedupe.crossPass] at hc
      split at hc
      · exact ih st c hc
      · split at hc
        · exact crossOuter_cands cfg _ st c hc
        · rcases ih _ c hc with h | h
          · exact crossOuter_cands cfg _ st c h
          · exact Or.inr h

theorem buildCandidates_cands (cfg : Dedupe.DCfg) (sim : String → String → ℚ)
    (nodes : List Dedupe.JNode) (c : Dedupe.Cand)
    (hc : c ∈ (Dedupe.buildCandidates cfg sim nodes).1) :
    c.reason = "cross_type_exact_name" ∨
      ∃ k bucket a b,
        aget (Dedupe.bucketsOf cfg (Dedupe.buildRecords nodes).1) k = some bucket ∧
        bucket.length ≤ cfg.maxBucketSize ∧ a ∈ bucket ∧ b ∈ bucket ∧
        c.nodeA = a.id ∧ c.nodeB = b.id ∧ c.reason = "same_group_bucket" := by
  unfold Dedupe.buildCandidates at hc
  dsimp only at hc
  have hbucket : ∀ (c : Dedupe.Cand),
      c ∈ (Dedupe.bucketPass cfg sim
        (Dedupe.bucketsOf cfg (Dedupe.buildRecords nodes).1)
        (pySort Dedupe.keyLe
          ((Dedupe.bucketsOf cfg (Dedupe.buildRecords nodes).1).map (fun p => p.1)))
        { seen := [], candidates := [], perNode := [] }).candidates →
      c.reason = "cross_type_exact_name" ∨
      ∃ k bucket a b,
        aget (Dedupe.bucketsOf cfg (Dedupe.buildRecords nodes).1) k = some bucket ∧
        bucket.length ≤ cfg.maxBucketSize ∧ a ∈ bucket ∧ b ∈ bucket ∧
        c.nodeA = a.id ∧ c.nodeB = b.id ∧ c.reason = "same_group_bucket" := by
    intro c hc
    rcases bucketPass_cands cfg sim _ _ _ c hc with h | h
    · simp at h
    · exact Or.inr h
  split at hc
  · rcases crossPass_cands cfg _ _ _ c hc with h | h
    · exact hbucket c h
    · exact Or.inl h
  · exact hbucket c hc


/-- The dedupe configuration with a small bucket cap, exercising the
oversized-bucket skip. -/
def cfgC7 : Dedupe.DCfg := { Dedupe.defaultCfg with maxBucketSize := 2 }

/-- Three entities sharing the name prefix abcd overflow the bucket cap
of 2; a concept with the exact name abcd triggers the cross-type
exact-name pass over that name. -/
def nodesC7 : List Dedupe.JNode :=
  [⟨"e1", ["Entity"], [("name", Value.vStr "abcd")]⟩,
   ⟨"e2", ["Entity"], [("name", Value.vStr "abcd")]⟩,
   ⟨"e3", ["Entity"], [("name", Value.vStr "abcdx")]⟩,
   ⟨"c1", ["Concept"], [("name", Value.vStr "abcd")]⟩]

/-- Counterexample to C7: although the bucket (Entity, empty domain,
abcd) holds 3 records, above the cap of 2, the cross-type exact-name
pass still emits a candidate pair both of whose members lie in that
bucket, so the oversized bucket is not skipped entirely. -/
theorem c7_counterexample :
    ((aget (Dedupe.bucketsOf cfgC7 (Dedupe.buildRecords nodesC7).1)
        ("Entity", "", "abcd")).getD []).length > cfgC7.maxBucketSize ∧
    ∃ c ∈ (Dedupe.buildCandidates cfgC7 (fun _ _ => 1) nodesC7).1,
      c.nodeA ∈ (((aget (Dedupe.bucketsOf cfgC7 (Dedupe.buildRecords nodesC7).1)
        ("Entity", "", "abcd")).getD []).map Dedupe.DRec.id) ∧
      c.nodeB ∈ (((aget (Dedupe.bucketsOf cfgC7 (Dedupe.buildRecords nodesC7).1)
        ("Entity", "", "abcd")).getD []).map Dedupe.DRec.id) := by
  refine ⟨by decide, by decide⟩

/-- C7 (amended): an oversized blocking bucket contributes no same-group
candidate: when record ids are distinct and a bucket exceeds the
configured maximum size, no emitted candidate with reason
same_group_bucket has both members drawn from that bucket, and candidate
generation is a total function (it completes without error); however a
pair of records from the oversized bucket can still be emitted by the
cross-type exact-name pass (see the counterexample). -/
theorem c7_oversized_bucket_skipped (cfg : Dedupe.DCfg)
    (sim : String → String → ℚ) (nodes : List Dedupe.JNode)
    (key : String × String × String) (bucket : List Dedupe.DRec)
    (c : Dedupe.Cand)
    (hN : (((Dedupe.buildRecords nodes).1).map Dedupe.DRec.id).Nodup)
    (hb : aget (Dedupe.bucketsOf cfg (Dedupe.buildRecords nodes).1) key = some bucket)
    (hsz : bucket.length > cfg.maxBucketSize)
    (hc : c ∈ (Dedupe.buildCandidates cfg sim nodes).1)
    (hr : c.reason = "same_group_bucket") :
    ¬ (c.nodeA ∈ bucket.map Dedupe.DRec.id ∧
       c.nodeB ∈ bucket.map Dedupe.DRec.id) := by
  rintro ⟨hA, _⟩
  rcases buildCandidates_cands cfg sim nodes c hc with h |
    ⟨k, bk, a, b, hbk, hsmall, ha, hb2, h1, h2, h3⟩
  · rw [hr] at h
    exact absurd h (by decide)
  · rw [List.mem_map] at hA
    obtain ⟨r, hrmem, hrid⟩ := hA
    have hrrec := bucketsOf_mem cfg _ key bucket hb r hrmem
    have harec := bucketsOf_mem cfg _ k bk hbk a ha
    have hra : r = a :=
      List.inj_on_of_nodup_map hN hrrec.1 harec.1 (by rw [hrid, h1])
    have hkeq : key = k := by rw [← hrrec.2, hra, harec.2]
    rw [hkeq, hbk] at hb
    have hbb := Option.some.inj hb
    subst hbb
    omega

/-- A configuration with integer-valued thresholds (keeping every proof
obligation kernel-evaluable), a bucket cap of 2 and the cross-type pass
disabled. -/
def cfgC7W : Dedupe.DCfg :=
  { similarityThreshold := 1
    crossTypeExactMatch := false
    allowCrossTypeMerge := false
    confidenceThreshold := 1
    checkpointEvery := 1
    prefixLen := 4
    minNameLen := 4
    maxBucketSize := 2
    maxCandidatesPerNode := 25
    maxTotalCandidates := 8000
    dryRun := false }

/-- The nodesC7 entities plus a small wxyz bucket that emits a genuine
same-group candidate. -/
def nodesC7W : List Dedupe.JNode :=
  [⟨"e1", ["Entity"], [("name", Value.vStr "abcd")]⟩,
   ⟨"e2", ["Entity"], [("name", Value.vStr "abcd")]⟩,
   ⟨"e3", ["Entity"], [("name", Value.vStr "abcdx")]⟩,
   ⟨"f1", ["Entity"], [("name", Value.vStr "wxyz")]⟩,
   ⟨"f2", ["Entity"], [("name", Value.vStr "wxyz")]⟩]

/-- Witness for C7: in the nodesC7W pool the same-group candidate
(f1, f2) has neither member in the oversized abcd bucket. -/
theorem c7_oversized_bucket_skipped_witness :
    ¬ ((⟨"f1", "f2", "same_group_bucket", Dedupe.round4 1⟩ : Dedupe.Cand).nodeA ∈
        (((aget (Dedupe.bucketsOf cfgC7W (Dedupe.buildRecords nodesC7W).1)
          ("Entity", "", "abcd")).getD []).map Dedupe.DRec.id) ∧
       (⟨"f1", "f2", "same_group_bucket", Dedupe.round4 1⟩ : Dedupe.Cand).nodeB ∈
        (((aget (Dedupe.bucketsOf cfgC7W (Dedupe.buildRecords nodesC7W).1)
          ("Entity", "", "abcd")).getD []).map Dedupe.DRec.id)) :=
  c7_oversized_bucket_skipped cfgC7W (fun _ _ => 1) nodesC7W ("Entity", "", "abcd")
    _ _ (by decide) rfl (by decide) (by decide) rfl


/-! Claim C4: alias resolution. -/

/-- The alias-map invariant maintained by ingestion: every alias entry
resolves in one hop to a present node, node keys are alias fixed points,
and every recorded alias id of a node maps to that node. -/
def AliasInv (b : Builder.CGB) : Prop :=
  (∀ x c, aget b.aliases x = some c →
    (∃ n, aget b.nodes c = some n) ∧ aget b.aliases c = some c) ∧
  (∀ k n, aget b.nodes k = some n → aget b.aliases k = some k ∧
    ∀ al ∈ n.aliasIds, aget b.aliases al = some k)

theorem aliasInv_empty : AliasInv {} := by
  constructor
  · intro x c h
    rw [aget_nil] at h
    exact absurd h (by simp)
  · intro k n h
    rw [aget_nil] at h
    exact absurd h (by simp)

theorem aget_foldl_aset_const {κ α : Type} [DecidableEq κ] (L : List κ) (v : α)
    (m : List (κ × α)) (x : κ) :
    aget (L.foldl (fun a k => aset a k v) m) x =
      if x ∈ L then some v else aget m x := by
  induction L generalizing m with
  | nil => simp
  | cons k rest ih =>
      rw [List.foldl_cons, ih]
      by_cases hx : x ∈ rest
      · rw [if_pos hx, if_pos (List.mem_cons_of_mem _ hx)]
      · rw [if_neg hx]
        by_cases hk : x = k
        · subst hk
          rw [aget_aset_self, if_pos (List.mem_cons_self _ _)]
        · rw [aget_aset_ne _ _ _ _ hk, if_neg (by simp [hk, hx])]

theorem aliasChain_get (base : List (String × String)) (cid origId : String)
    (ids : List String) (x : String) :
    aget (ids.foldl (fun a al => aset a al cid) (aset (aset base cid cid) origId cid)) x =
      if x ∈ ids ∨ x = origId ∨ x = cid then some cid else aget base x := by
  rw [aget_foldl_aset_const]
  by_cases h1 : x ∈ ids
  · rw [if_pos h1, if_pos (Or.inl h1)]
  · rw [if_neg h1]
    by_cases h2 : x = origId
    · subst h2
      rw [aget_aset_self, if_pos (Or.inr (Or.inl rfl))]
    · rw [aget_aset_ne _ _ _ _ h2]
      by_cases h3 : x = cid
      · subst h3
        rw [aget_aset_self, if_pos (Or.inr (Or.inr rfl))]
      · rw [aget_aset_ne _ _ _ _ h3, if_neg (by simp [h1, h2, h3])]

theorem normalizeNode_id (aliases : List (String × String)) (node : Builder.RawNode)
    (f kind : String) :
    (Builder.normalizeNode aliases node f kind).id =
      Builder.canonicalNodeId aliases node kind := rfl

theorem normalizeNode_aliasIds (aliases : List (String × String))
    (node : Builder.RawNode) (f kind : String) :
    (Builder.normalizeNode aliases node f kind).aliasIds =
      [Builder.canonicalizeId node.id] := rfl

theorem mergeNodeRecords_aliasIds (e i : Builder.BNode) :
    (Builder.mergeNodeRecords e i).aliasIds =
      Builder.mergeStrLists e.aliasIds i.aliasIds := rfl

theorem canonicalNodeId_hit_raw (aliases : List (String × String))
    (node : Builder.RawNode) (kind : String)
    (hraw : Builder.canonicalizeId node.id ≠ "") (c0 : String)
    (h : aget aliases (Builder.canonicalizeId node.id) = some c0) :
    Builder.canonicalNodeId aliases node kind = c0 := by
  unfold Builder.canonicalNodeId
  dsimp only
  rw [if_pos hraw, h]

theorem canonicalNodeId_cases (aliases : List (String × String))
    (node : Builder.RawNode) (kind : String)
    (hraw : Builder.canonicalizeId node.id ≠ "") :
    (∃ cand, aget aliases cand = some (Builder.canonicalNodeId aliases node kind)) ∨
    aget aliases (Builder.canonicalNodeId aliases node kind) = none := by
  unfold Builder.canonicalNodeId
  dsimp only
  rw [if_pos hraw]
  cases h1 : aget aliases (Builder.canonicalizeId node.id) with
  | some hit => exact Or.inl ⟨_, h1⟩
  | none =>
      by_cases h2 : Builder.nameIdOf node ≠ ""
      · rw [if_pos h2]
        cases h3 : aget aliases (Builder.nameIdOf node) with
        | some hit => exact Or.inl ⟨_, h3⟩
        | none =>
            dsimp only
            repeat' split
            all_goals first
              | exact Or.inr h3
              | exact Or.inr h1
              | (exfalso; simp_all)
      · rw [if_neg h2]
        have hnid : Builder.nameIdOf node = "" := not_not.1 h2
        dsimp only
        repeat' split
        all_goals first
          | exact Or.inr h1
          | (exfalso; simp_all)


/-- The written-key predicate of the alias updates of one ingested
node. -/
abbrev writtenKey (ids : List String) (origId cid x : String) : Prop :=
  x ∈ ids ∨ x = origId ∨ x = cid

theorem aliasmaps_inv (base aliases2 : List (String × String))
    (nodesMap : List (String × Builder.BNode))
    (cid origId : String) (ids : List String) (stored : Builder.BNode)
    (hget : ∀ x, aget aliases2 x =
        if writtenKey ids origId cid x then some cid else aget base x)
    (I1 : ∀ x c, aget base x = some c →
        (∃ n, aget nodesMap c = some n) ∧ aget base c = some c)
    (I2 : ∀ k n, aget nodesMap k = some n → aget base k = some k ∧
        ∀ al ∈ n.aliasIds, aget base al = some k)
    (Hcid : ∀ c0, aget base cid = some c0 → c0 = cid)
    (Horig : ∀ c0, aget base origId = some c0 → c0 = cid)
    (Hids : ∀ al ∈ ids, ∀ c0, aget base al = some c0 → c0 = cid)
    (hstoredIds : stored.aliasIds = ids) :
    (∀ x c, aget aliases2 x = some c →
      (∃ n, aget (aset nodesMap cid stored) c = some n) ∧
      aget aliases2 c = some c) ∧
    (∀ k n, aget (aset nodesMap cid stored) k = some n →
      aget aliases2 k = some k ∧ ∀ al ∈ n.aliasIds, aget aliases2 al = some k) := by
  have hwritten_val : ∀ x, writtenKey ids origId cid x →
      ∀ c0, aget base x = some c0 → c0 = cid := by
    intro x hw c0 h0
    rcases hw with hw | hw | hw
    · exact Hids x hw c0 h0
    · subst hw
      exact Horig c0 h0
    · subst hw
      exact Hcid c0 h0
  have hcid_self : aget aliases2 cid = some cid := by
    rw [hget cid, if_pos (Or.inr (Or.inr rfl))]
  constructor
  · intro x c hx
    by_cases hw : writtenKey ids origId cid x
    · rw [hget x, if_pos hw] at hx
      have hc : c = cid := (Option.some.inj hx).symm
      subst hc
      exact ⟨⟨stored, aget_aset_self _ _ _⟩, hcid_self⟩
    · rw [hget x, if_neg hw] at hx
      obtain ⟨⟨n0, hn0⟩, hcc⟩ := I1 x c hx
      constructor
      · by_cases hc : c = cid
        · subst hc
          exact ⟨stored, aget_aset_self _ _ _⟩
        · refine ⟨n0, ?_⟩
          rw [aget_aset_ne _ _ _ _ hc]
          exact hn0
      · by_cases hwc : writtenKey ids origId cid c
        · have hceq : c = cid := hwritten_val c hwc c hcc
          rw [hget c, if_pos hwc, hceq]
        · rw [hget c, if_neg hwc]
          exact hcc
  · intro k n hk
    by_cases hkc : k = cid
    · subst hkc
      rw [aget_aset_self] at hk
      have hn : stored = n := Option.some.inj hk
      refine ⟨hcid_self, ?_⟩
      intro al hal
      rw [← hn, hstoredIds] at hal
      rw [hget al, if_pos (Or.inl hal)]
    · rw [aget_aset_ne _ _ _ _ hkc] at hk
      obtain ⟨hkk, hals⟩ := I2 k n hk
      constructor
      · by_cases hwk : writtenKey ids origId cid k
        · exact absurd (hwritten_val k hwk k hkk) hkc
        · rw [hget k, if_neg hwk]
          exact hkk
      · intro al hal
        have h0 := hals al hal
        by_cases hwal : writtenKey ids origId cid al
        · exact absurd (hwritten_val al hwal k h0) hkc
        · rw [hget al, if_neg hwal]
          exact h0


theorem ingestNode_inv (b : Builder.CGB) (node : Builder.RawNode) (f kind : String)
    (hInv : AliasInv b) (hraw : Builder.canonicalizeId node.id ≠ "") :
    AliasInv (Builder.ingestNode b node f kind) := by
  obtain ⟨I1, I2⟩ := hInv
  have Hcid : ∀ c0,
      aget b.aliases (Builder.canonicalNodeId b.aliases node kind) = some c0 →
      c0 = Builder.canonicalNodeId b.aliases node kind := by
    intro c0 h0
    rcases canonicalNodeId_cases b.aliases node kind hraw with ⟨cand, hc⟩ | hc
    · have h2 := (I1 cand _ hc).2
      rw [h2] at h0
      exact (Option.some.inj h0).symm
    · rw [hc] at h0
      exact absurd h0 (by simp)
  have Horig : ∀ c0, aget b.aliases (Builder.canonicalizeId node.id) = some c0 →
      c0 = Builder.canonicalNodeId b.aliases node kind := by
    intro c0 h0
    exact (canonicalNodeId_hit_raw b.aliases node kind hraw c0 h0).symm
  unfold Builder.ingestNode
  dsimp only
  rw [normalizeNode_id, if_pos hraw]
  cases hex : aget b.nodes (Builder.canonicalNodeId b.aliases node kind) with
  | some existing =>
      dsimp only
      refine aliasmaps_inv b.aliases _ b.nodes _ _ _ _
        (fun x => aliasChain_get b.aliases _ _ _ x) I1 I2 Hcid Horig ?_ rfl
      intro al hal c0 h0
      rw [mergeNodeRecords_aliasIds, normalizeNode_aliasIds,
        mem_mergeStrLists] at hal
      rcases hal with hal | hal
      · have h2 := (I2 _ existing hex).2 al hal
        rw [h2] at h0
        exact (Option.some.inj h0).symm
      · rw [List.mem_singleton] at hal
        subst hal
        exact Horig c0 h0
  | none =>
      dsimp only
      refine aliasmaps_inv b.aliases _ b.nodes _ _ _ _
        (fun x => aliasChain_get b.aliases _ _ _ x) I1 I2 Hcid Horig ?_ rfl
      intro al hal c0 h0
      rw [normalizeNode_aliasIds, List.mem_singleton] at hal
      subst hal
      exact Horig c0 h0


theorem aliasInv_of_eq (b1 b2 : Builder.CGB) (ha : b2.aliases = b1.aliases)
    (hn : b2.nodes = b1.nodes) (h : AliasInv b1) : AliasInv b2 := by
  unfold AliasInv at h ⊢
  rw [ha, hn]
  exact h

theorem aliasInv_stats (b : Builder.CGB) (s : Builder.Stats) (h : AliasInv b) :
    AliasInv { b with stats := s } := h

theorem ingestRel_state (b : Builder.CGB) (r : Builder.RawRel) (f : String) :
    (Builder.ingestRel b r f).aliases = b.aliases ∧
    (Builder.ingestRel b r f).nodes = b.nodes := by
  unfold Builder.ingestRel
  dsimp only
  split <;> exact ⟨rfl, rfl⟩

theorem ingestNodesFold_inv (nodes : List Builder.RawNode) (f kind : String) :
    ∀ b, AliasInv b → (∀ node ∈ nodes, Builder.canonicalizeId node.id ≠ "") →
    AliasInv (nodes.foldl (fun acc n => Builder.ingestNode acc n f kind) b) := by
  induction nodes with
  | nil => exact fun b h _ => h
  | cons n rest ih =>
      intro b h hids
      rw [List.foldl_cons]
      exact ih _ (ingestNode_inv b n f kind h (hids n (List.mem_cons_self _ _)))
        (fun m hm => hids m (List.mem_cons_of_mem _ hm))

theorem ingestRelsFold_inv (rels : List Builder.RawRel) (f : String) :
    ∀ b, AliasInv b →
    AliasInv (rels.foldl (fun acc r => Builder.ingestRel acc r f) b) := by
  induction rels with
  | nil => exact fun b h => h
  | cons r rest ih =>
      intro b h
      rw [List.foldl_cons]
      exact ih _ (aliasInv_of_eq b _ (ingestRel_state b r f).1
        (ingestRel_state b r f).2 h)

theorem ingestBatch_inv (b : Builder.CGB) (nodes : List Builder.RawNode)
    (rels : List Builder.RawRel) (f kind : String) (hInv : AliasInv b)
    (hids : ∀ node ∈ nodes, Builder.canonicalizeId node.id ≠ "") :
    AliasInv (Builder.ingestBatch b nodes rels f kind) := by
  unfold Builder.ingestBatch
  dsimp only
  exact ingestRelsFold_inv rels f _
    (ingestNodesFold_inv nodes f kind _ (aliasInv_stats b _ hInv) hids)

theorem ingestBatches_inv
    (batches : List (List Builder.RawNode × List Builder.RawRel × String × String)) :
    ∀ b, AliasInv b →
    (∀ batch ∈ batches, ∀ node ∈ batch.1, Builder.canonicalizeId node.id ≠ "") →
    AliasInv (batches.foldl (fun acc batch =>
      Builder.ingestBatch acc batch.1 batch.2.1 batch.2.2.1 batch.2.2.2) b) := by
  induction batches with
  | nil => exact fun b h _ => h
  | cons batch rest ih =>
      intro b h hids
      rw [List.foldl_cons]
      exact ih _ (ingestBatch_inv b batch.1 batch.2.1 batch.2.2.1 batch.2.2.2 h
        (hids batch (List.mem_cons_self _ _)))
        (fun bt hbt => hids bt (List.mem_cons_of_mem _ hbt))

/-- A pump entity whose raw id ends in _system (so its canonical id is
the name-derived pump_a) next to a short pmp node that wins the
name-fingerprint reconcile. -/
def bC4 : Builder.CGB :=
  Builder.ingestBatch {}
    [⟨"pump_a_system", ["Entity"],
      [("name", Value.vStr "Pump A"), ("node_type", Value.vStr "entity")]⟩,
     ⟨"pmp", ["Entity"], [("name", Value.vStr "Pump")]⟩]
    [] "f.md" "markdown"

/-- Counterexample to C4: after finalize, the alias entry for
pump_a_system still points at pump_a, but the reconcile merged pump_a
into pmp and deleted it: the target node is absent and its own alias
entry points elsewhere, so resolution needs two hops. -/
theorem c4_counterexample :
    aget (Builder.finalize bC4).aliases "pump_a_system" = some "pump_a" ∧
    aget (Builder.finalize bC4).nodes "pump_a" = none ∧
    aget (Builder.finalize bC4).aliases "pump_a" = some "pmp" := by
  refine ⟨by decide, by decide, by decide⟩

/-- C4 (amended): one-hop alias resolution holds after ingestion alone:
for batches whose node records all carry a nonempty canonicalized raw
id, every alias entry of the ingested builder maps to a node present in
the store whose own alias entry is a fixed point. The final name-based
reconcile breaks the invariant: it rewrites only the merged candidate
alias, leaving other aliases of the deleted node pointing at a removed
id (see the counterexample). -/
theorem c4_alias_one_hop
    (batches : List (List Builder.RawNode × List Builder.RawRel × String × String))
    (b : Builder.CGB)
    (hids : ∀ batch ∈ batches, ∀ node ∈ batch.1, Builder.canonicalizeId node.id ≠ "")
    (hb : b = batches.foldl (fun acc batch =>
      Builder.ingestBatch acc batch.1 batch.2.1 batch.2.2.1 batch.2.2.2) {}) :
    ∀ x c, aget b.aliases x = some c →
      (∃ n, aget b.nodes c = some n) ∧ aget b.aliases c = some c := by
  subst hb
  exact (ingestBatches_inv batches {} aliasInv_empty hids).1

/-- Witness for C4 at the bC4 batch: the alias entry for pump_a_system
resolves in one hop right after ingestion. -/
theorem c4_alias_one_hop_witness :
    (∃ n, aget bC4.nodes "pump_a" = some n) ∧
    aget bC4.aliases "pump_a" = some "pump_a" :=
  c4_alias_one_hop
    [([⟨"pump_a_system", ["Entity"],
        [("name", Value.vStr "Pump A"), ("node_type", Value.vStr "entity")]⟩,
       ⟨"pmp", ["Entity"], [("name", Value.vStr "Pump")]⟩], [], "f.md", "markdown")]
    bC4 (by decide) rfl "pump_a_system" "pump_a" (by decide)

end GraphPoC
